import Mathlib

/-!
Verification development for the `pathbox` path-capability mediator.

The Rust sources modelled here are `src/preopener.rs` (argument classifier,
capability table, open dispatcher) and `src/writer.rs` (the output token
rewriter).  Rust strings are modelled as `List Char`; the writer operates on
byte buffers, which are likewise modelled as `List Char` (its algorithms are
alphabet-generic and its only literal, `"guest-path."`, is ASCII).

Since `uuid::Uuid::new_v4()` is a random source, token allocation is
parametrised by a supply `gen : Nat → List Char` of uuid texts together with a
cursor `next` in the mediator state; `gen` is threaded explicitly through the
processing functions.

Rust functions that can panic are modelled with `Option`/an explicit `crashed`
outcome: `split_extension` slices `&basename[1..]` at byte index 1, which
panics when the basename's first character is a multi-byte character, so the
model returns `none` exactly there.
-/

abbrev Str := List Char

/-- Model of Rust `str::strip_prefix`: `stripPfx p s = some rest` iff `s = p ++ rest`. -/
def stripPfx : Str → Str → Option Str
  | [], s => some s
  | _ :: _, [] => none
  | p :: ps, c :: cs => if p = c then stripPfx ps cs else none

/-- Model of Rust `str::split(sep)`: splits at every occurrence of `sep`,
keeping empty segments; the empty string yields one empty segment. -/
def splitOn (sep : Char) : Str → List Str
  | [] => [[]]
  | c :: cs =>
    let r := splitOn sep cs
    if c = sep then [] :: r else (c :: r.headD []) :: r.tail

/-- Model of `arg.find('=')` followed by `arg.split_at(eq + 1)`: the prefix up
to and including the first `=`, and the suffix after it. -/
def splitAtFirstEq : Str → Option (Str × Str)
  | [] => none
  | c :: cs =>
    if c = '=' then some ([c], cs)
    else
      match splitAtFirstEq cs with
      | some (p, s) => some (c :: p, s)
      | none => none

/-- Model of `Vec::join(sep)`. -/
def joinSep (sep : Str) : List Str → Str
  | [] => []
  | [x] => x
  | x :: xs => x ++ sep ++ joinSep sep xs

/-- The substring following the last `/` (all of `s` if there is none),
as computed by `s.rfind('/')` in `split_extension`. -/
def afterLastSlash (s : Str) : Str :=
  (s.reverse.takeWhile (fun c => !(c == '/'))).reverse

/-- Byte length of the UTF-8 encoding, as Rust's `str::len`. -/
def utf8Len (s : Str) : Nat := (s.map Char.utf8Size).sum

/-- Unicode `White_Space`, as Rust's `char::is_whitespace`. -/
def rustIsWhitespace (c : Char) : Bool :=
  c.val == 0x09 || c.val == 0x0A || c.val == 0x0B || c.val == 0x0C ||
  c.val == 0x0D || c.val == 0x20 || c.val == 0x85 || c.val == 0xA0 ||
  c.val == 0x1680 || (0x2000 ≤ c.val && c.val ≤ 0x200A) ||
  c.val == 0x2028 || c.val == 0x2029 || c.val == 0x202F ||
  c.val == 0x205F || c.val == 0x3000

/-- Unicode category `Cc`, as Rust's `char::is_control`. -/
def rustIsControl (c : Char) : Bool :=
  c.val ≤ 0x1F || (0x7F ≤ c.val && c.val ≤ 0x9F)

/-- Rust's `char::is_ascii_graphic`: `'!'..='~'`. -/
def isAsciiGraphic (c : Char) : Bool :=
  0x21 ≤ c.val && c.val ≤ 0x7E

/-- Rust's `char::is_ascii_alphanumeric`. -/
def isAsciiAlphanumeric (c : Char) : Bool :=
  (0x30 ≤ c.val && c.val ≤ 0x39) || (0x41 ≤ c.val && c.val ≤ 0x5A) ||
  (0x61 ≤ c.val && c.val ≤ 0x7A)

/-- Test whether `c` is a `char` which is never part of a filename extension
(`is_never_extension` in `preopener.rs`). -/
def is_never_extension (c : Char) : Bool :=
  rustIsWhitespace c || rustIsControl c
    || c == '*'
    || c == '"'
    || c == '\''
    || c == '`'
    || c == ':'
    || c == ';'
    || c == '\\'
    || c == '('
    || c == ')'
    || c == '{'
    || c == '}'
    || c == '['
    || c == ']'
    || c == '|'
    || c == '>'
    || c == '<'
    || c == '\uFEFF'
    || c == '\uFFF9'
    || c == '\uFFFA'
    || c == '\uFFFB'
    || c == '\uFFFC'
    || c == '\uFFFD'

/-- The `while let Some(last_dot) = remainder.find('.')` loop of
`split_extension`: find the suffix (starting at a `.`) whose text after the
dot neither starts with another `.` nor contains any never-extension
character; on rejection the scan resumes after the rejected dot. -/
def extSearch : Str → Option Str
  | [] => none
  | c :: rest =>
    if c = '.' then
      if rest.headD ' ' = '.' then extSearch rest
      else if rest.any is_never_extension then extSearch rest
      else some (c :: rest)
    else extSearch rest

/-- Model of `split_extension` in `preopener.rs`.  Returns `none` exactly when
the Rust code panics: the basename contains a `.` and its first character is
a multi-byte character, so `&basename[1..]` is not sliced at a char boundary. -/
def split_extension (s : Str) : Option (Str × Str) :=
  let basename := afterLastSlash s
  if !(basename.contains '.') then some (s, [])
  else
    match basename with
    | [] => some (s, [])
    | c :: rest =>
      if c.utf8Size ≠ 1 then none
      else
        match extSearch rest with
        | some suffix => some (s.take (s.length - suffix.length), suffix)
        | none => some (s, [])

/-- Test whether `c` is a suspicious shell metacharacter
(`is_suspicious_shell_metacharacter`, POSIX configuration). -/
def is_suspicious_shell_metacharacter (c : Char) : Bool :=
  c == '&' || c == '<' || c == '>' || c == '\\' || c == '|' || c == '?' ||
  c == '*' || c == '[' || c == ']' || c == '"' || c == '\'' || c == ';'

/-- Components of a Unix path as produced by Rust's `Path::components`:
a leading `/` becomes the root component `"/"`, a leading `.` (alone or
followed by `/`) is kept, other `.` components and empty components are
dropped, and `..` components are kept. -/
def rustComponents (s : Str) : List Str :=
  let isRoot := s.headD ' ' == '/'
  let body := (splitOn '/' s).filter (fun p => !(p.isEmpty) && !(p == ['.']))
  let curDir := s == ['.'] || (stripPfx ['.', '/'] s).isSome
  (if isRoot then [['/']] else []) ++ (if curDir then [['.']] else []) ++ body

/-- The per-component check in `is_likely_path`: `.` and `..` pass; otherwise
the component must not begin or end with whitespace nor end with `.`. -/
def componentOk (comp : Str) : Bool :=
  comp == ['.'] || comp == ['.', '.'] ||
  (match comp.head?, comp.getLast? with
   | some f, some l => !(rustIsWhitespace f) && !(rustIsWhitespace l) && !(l == '.')
   | _, _ => false)

/-- Rust's `Path::file_name`: the final component when it is a normal one. -/
def rustFileName (s : Str) : Option Str :=
  match (rustComponents s).getLast? with
  | some comp =>
    if comp == ['/'] || comp == ['.'] || comp == ['.', '.'] then none else some comp
  | none => none

/-- Rust's `Path::extension`: the portion of the file name after its last `.`,
provided that dot is not the leading character. -/
def rustExtension (s : Str) : Option Str :=
  match rustFileName s with
  | none => none
  | some f =>
    if !(f.tail.contains '.') then none
    else some (f.reverse.takeWhile (fun c => !(c == '.'))).reverse

/-- The dotfile positive signal of `is_likely_path`: a leading `.` followed
only by ASCII-graphic characters outside the metacharacter set. -/
def dotfileSignal (arg : Str) : Bool :=
  match arg with
  | '.' :: suffix =>
    suffix.all (fun c =>
      isAsciiGraphic c &&
      !(c == '&' || c == '<' || c == '>' || c == '\\' || c == '|' || c == '?' ||
        c == '*' || c == '[' || c == ']' || c == '"' || c == '\'' || c == ';'))
  | _ => false

/-- The conventional-extension positive signal of `is_likely_path`. -/
def extensionSignal (arg : Str) : Bool :=
  match rustExtension arg with
  | some ext => !(ext.isEmpty) && ext.length ≤ 16 && ext.all isAsciiAlphanumeric
  | none => false

/-- Model of `is_likely_path` in `preopener.rs` (POSIX configuration). -/
def is_likely_path (arg : Str) : Bool :=
  if utf8Len arg > 4096 then false
  else
    match arg.head? with
    | none => false
    | some c =>
      if c = '-' then false
      else if rustIsWhitespace c then false
      else if c = '~' ∨ c = '!' then false
      else if c = '%' then false
      else if is_suspicious_shell_metacharacter c then false
      else if !((rustComponents arg).all componentOk) then false
      else if arg.any rustIsControl then false
      else if arg.contains '/' then true
      else if extensionSignal arg then true
      else if dotfileSignal arg then true
      else false

/-- The level of path inference that should be performed (`MagicLevel`). -/
inductive MagicLevel where
  | None
  | Escapes
  | Readonly
  | Auto
deriving DecidableEq

/-- Numeric rank of a level, giving Rust's derived `PartialOrd`
(declaration order). -/
def MagicLevel.toNat : MagicLevel → Nat
  | .None => 0
  | .Escapes => 1
  | .Readonly => 2
  | .Auto => 3

/-- Model of `self.magic_level >= level` under the derived ordering. -/
def mlGe (a b : MagicLevel) : Bool := b.toNat ≤ a.toNat

/-- What types of file access should be permitted (`Access`). -/
inductive Access where
  | Read
  | Write
  | Append
  | ReadonlyDir
  | MutableDir
  | Any
deriving DecidableEq

/-- A record of a name which has been replaced (`Preopen`). -/
structure Preopen where
  uuid : Str
  original : Str
  access : Access
deriving DecidableEq

/-- A set of preopens which isolates external paths from internal paths
(`Preopener`).  `next` is the cursor into the uuid supply. -/
structure Preopener where
  magic_level : MagicLevel
  preopens : List Preopen
  next : Nat
deriving DecidableEq

/-- Construct a new empty instance of `Preopener` (`Preopener::new`). -/
def Preopener.new (level : MagicLevel) : Preopener := ⟨level, [], 0⟩

/-- The fixed literal prefix of every allocated token:
`format!("wasi-preopen.{}", uuid)`. -/
def mkToken (u : Str) : Str := "wasi-preopen.".toList ++ u

/-- Outcome of `Preopener::process`: success with the translated string and
the updated state, a classifier error carrying the message, or a Rust panic
(reachable through `split_extension`). -/
inductive PResult where
  | ok (out : Str) (st : Preopener)
  | err (msg : String)
  | crashed
deriving DecidableEq

/-- The reserved-prefix classifier error message in `Preopener::process`. -/
def reservedMsg : String :=
  "Arguments beginning with '%' have special meanings. Prepend \"%verbatim:\" to pass a verbatim argument through."

/-- Model of `Preopener::replace_with_uuid`: split off the extension, mint a
fresh token, record the binding for the stem, and return `token ++ ext`.
`none` models the panic propagated from `split_extension`. -/
def replace_with_uuid (gen : Nat → Str) (st : Preopener) (s : Str) (access : Access) :
    Option (Str × Preopener) :=
  match split_extension s with
  | none => none
  | some (base, ext) =>
    let uuid := mkToken (gen st.next)
    some (uuid ++ ext,
      { st with preopens := st.preopens ++ [⟨uuid, base, access⟩], next := st.next + 1 })

/-- Sequential tokenisation of the segments of a colon-separated list, as the
`arg.split(':').map(|part| self.replace_with_uuid(part, default_access))`
pipeline. -/
def replaceSegments (gen : Nat → Str) (da : Access) :
    Preopener → List Str → Option (List Str × Preopener)
  | st, [] => some ([], st)
  | st, seg :: rest =>
    match replace_with_uuid gen st seg da with
    | none => none
    | some (out, st') =>
      match replaceSegments gen da st' rest with
      | none => none
      | some (outs, st'') => some (out :: outs, st'')

/-- One `%`-directive body: mint the token and wrap the outcome. -/
def directive (gen : Nat → Str) (st : Preopener) (path : Str) (access : Access) : PResult :=
  match replace_with_uuid gen st path access with
  | none => .crashed
  | some (out, st') => .ok out st'

/-- The `%`-escape dispatch of `Preopener::process`, applied to the argument
with its leading `%` stripped. -/
def processEscape (gen : Nat → Str) (st : Preopener) (rest : Str) : PResult :=
  match stripPfx "verbatim:".toList rest with
  | some verbatim => .ok verbatim st
  | none =>
  match stripPfx "read:".toList rest with
  | some path => directive gen st path .Read
  | none =>
  match stripPfx "write:".toList rest with
  | some path => directive gen st path .Write
  | none =>
  match stripPfx "append:".toList rest with
  | some path => directive gen st path .Append
  | none =>
  match stripPfx "dir:".toList rest with
  | some path => directive gen st path .ReadonlyDir
  | none =>
  match stripPfx "mutable-dir:".toList rest with
  | some path => directive gen st path .MutableDir
  | none => .err reservedMsg

/-- The final `is_likely_path(&arg)` fallback of the heuristic pipeline. -/
def processPlain (gen : Nat → Str) (st : Preopener) (da : Access) (arg : Str) : PResult :=
  if is_likely_path arg then
    match replace_with_uuid gen st arg da with
    | none => .crashed
    | some (out, st') => .ok out st'
  else .ok arg st

/-- The heuristic branch of `Preopener::process` (magic level ≥ `Readonly`),
reached when the argument does not begin with `%`. -/
def processHeuristic (gen : Nat → Str) (st : Preopener) (arg : Str) : PResult :=
  if mlGe st.magic_level .Readonly then
    let da := if mlGe st.magic_level .Auto then Access.Any else Access.Read
    if arg.contains ':' then
      if (splitOn ':' arg).all is_likely_path then
        match replaceSegments gen da st (splitOn ':' arg) with
        | some (outs, st') => .ok (joinSep [':'] outs) st'
        | none => .crashed
      else .ok arg st
    else
      match splitAtFirstEq arg with
      | some (pre, suf) =>
        if !(pre.contains '/') && is_likely_path suf then
          match replace_with_uuid gen st suf da with
          | some (out, st') => .ok (pre ++ out) st'
          | none => .crashed
        else processPlain gen st da arg
      | none => processPlain gen st da arg
  else .ok arg st

/-- Model of `Preopener::process`. -/
def process (gen : Nat → Str) (st : Preopener) (arg : Str) : PResult :=
  if mlGe st.magic_level .Escapes then
    match stripPfx ['%'] arg with
    | some rest => processEscape gen st rest
    | none => processHeuristic gen st arg
  else .ok arg st

/-- Outcome of processing a whole list of arguments. -/
inductive PListResult where
  | ok (outs : List Str) (st : Preopener)
  | err (msg : String)
  | crashed
deriving DecidableEq

/-- Model of `Preopener::process_args`. -/
def process_args (gen : Nat → Str) (st : Preopener) : List Str → PListResult
  | [] => .ok [] st
  | a :: rest =>
    match process gen st a with
    | .ok out st' =>
      match process_args gen st' rest with
      | .ok outs st'' => .ok (out :: outs) st''
      | .err m => .err m
      | .crashed => .crashed
    | .err m => .err m
    | .crashed => .crashed

/-- Outcome of processing environment variables. -/
inductive VResult where
  | ok (outs : List (Str × Str)) (st : Preopener)
  | err (msg : String)
  | crashed
deriving DecidableEq

/-- Model of `Preopener::process_vars`: each value is processed, keys pass
through untouched. -/
def process_vars (gen : Nat → Str) (st : Preopener) : List (Str × Str) → VResult
  | [] => .ok [] st
  | (key, val) :: rest =>
    match process gen st val with
    | .ok out st' =>
      match process_vars gen st' rest with
      | .ok outs st'' => .ok ((key, out) :: outs) st''
      | .err m => .err m
      | .crashed => .crashed
    | .err m => .err m
    | .crashed => .crashed

/-- A fixed stand-in uuid supply used in concrete evaluations. -/
def gen0 : Nat → Str := fun n => ("u".toList) ++ (Nat.toDigits 10 n)

/-- Subset of `std::io::ErrorKind` appearing in the dispatcher. -/
inductive ErrKind where
  | permissionDenied
  | notFound
deriving DecidableEq

/-- The two error message shapes built by `Preopener::preopen_search_failed`. -/
inductive ErrMsg where
  | onlyPermits (original : Str) (access : String)
  | notAPreopen
deriving DecidableEq

/-- An `std::io::Error` as constructed by the dispatcher. -/
structure IoErr where
  kind : ErrKind
  msg : ErrMsg
deriving DecidableEq

/-- The access-name table of `preopen_search_failed`; `Any` yields `none`
(the loop's `continue`). -/
def accessName : Access → Option String
  | .Read => some "read"
  | .Write => some "write"
  | .Append => some "append"
  | .ReadonlyDir => some "readonly directory"
  | .MutableDir => some "read/write directory"
  | .Any => none

/-- Model of `Preopener::preopen_search_failed`: report the first non-`Any`
binding whose token is a prefix of the path, else the generic message. -/
def preopen_search_failed : List Preopen → Str → IoErr
  | [], _ => ⟨.permissionDenied, .notAPreopen⟩
  | p :: rest, path =>
    match accessName p.access with
    | none => preopen_search_failed rest path
    | some nm =>
      if (stripPfx p.uuid path).isSome then ⟨.permissionDenied, .onlyPermits p.original nm⟩
      else preopen_search_failed rest path

/-- The common loop of the five open operations: skip bindings whose access
fails the operation's `matches!` test, and delegate on the first remaining
binding whose token is a prefix of the path, with the host path
`original ++ rest` (an `OsString::push` concatenation). -/
def openLoop (ok : Access → Bool) : List Preopen → Str → Option Str
  | [], _ => none
  | p :: rest, path =>
    if ok p.access then
      match stripPfx p.uuid path with
      | some r => some (p.original ++ r)
      | none => openLoop ok rest path
    else openLoop ok rest path

/-- `matches!(access, Access::Read | Access::Any)` in `Preopener::open`. -/
def readOk : Access → Bool
  | .Read => true
  | .Any => true
  | _ => false

/-- `matches!(access, Access::Write | Access::Any)` in `Preopener::create`. -/
def writeOk : Access → Bool
  | .Write => true
  | .Any => true
  | _ => false

/-- `matches!(access, Access::Append | Access::Any)` in `Preopener::append`. -/
def appendOk : Access → Bool
  | .Append => true
  | .Any => true
  | _ => false

/-- `matches!(access, Access::MutableDir | Access::ReadonlyDir | Access::Any)`
in `Preopener::open_dir`. -/
def dirOk : Access → Bool
  | .MutableDir => true
  | .ReadonlyDir => true
  | .Any => true
  | _ => false

/-- `matches!(access, Access::MutableDir | Access::Any)` in
`Preopener::open_mutable_dir`. -/
def mutableDirOk : Access → Bool
  | .MutableDir => true
  | .Any => true
  | _ => false

/-- Model of `Preopener::open`; a successful outcome carries the host path
handed to `File::open`. -/
def Preopener.open (st : Preopener) (path : Str) : Except IoErr Str :=
  match openLoop readOk st.preopens path with
  | some host => .ok host
  | none => .error (preopen_search_failed st.preopens path)

/-- Model of `Preopener::create` (host path handed to `File::create`). -/
def Preopener.create (st : Preopener) (path : Str) : Except IoErr Str :=
  match openLoop writeOk st.preopens path with
  | some host => .ok host
  | none => .error (preopen_search_failed st.preopens path)

/-- Model of `Preopener::append`. -/
def Preopener.append (st : Preopener) (path : Str) : Except IoErr Str :=
  match openLoop appendOk st.preopens path with
  | some host => .ok host
  | none => .error (preopen_search_failed st.preopens path)

/-- Model of `Preopener::open_dir` (read-only directory view). -/
def Preopener.open_dir (st : Preopener) (path : Str) : Except IoErr Str :=
  match openLoop dirOk st.preopens path with
  | some host => .ok host
  | none => .error (preopen_search_failed st.preopens path)

/-- Model of `Preopener::open_mutable_dir` (full directory view). -/
def Preopener.open_mutable_dir (st : Preopener) (path : Str) : Except IoErr Str :=
  match openLoop mutableDirOk st.preopens path with
  | some host => .ok host
  | none => .error (preopen_search_failed st.preopens path)

/-- A binding as seen by the output rewriter in `writer.rs`: the token
(`guest`) and the original host path. -/
structure Grant where
  guest : Str
  original : Str
deriving DecidableEq

/-- Model of `is_subsequence` in `writer.rs`, including its scan bound
`0..haystack.len() - needle.len()` (exclusive). -/
def is_subsequence (needle hay : Str) : Option (Nat × Nat) :=
  if needle.length ≤ hay.length then
    match (List.range (hay.length - needle.length)).find?
        (fun i => decide (((hay.drop i).take needle.length) = needle)) with
    | some i => some (i, i + needle.length)
    | none => none
  else none

/-- The body of the grant loop in `Writer::replace_guest_paths`: if the grant's
token occupies `buf[before .. before + guest.len]`, splice in the original. -/
def replaceAtGrant (before : Nat) (buf : Str) (g : Grant) : Str :=
  if before + g.guest.length ≤ buf.length ∧ (buf.drop before).take g.guest.length = g.guest then
    buf.take before ++ g.original ++ buf.drop (before + g.guest.length)
  else buf

/-- Model of `Writer::replace_guest_paths`: locate the first occurrence of the
literal `guest-path.` and try every grant at that single position. -/
def replace_guest_paths (grants : List Grant) (buf : Str) : Str :=
  match is_subsequence "guest-path.".toList buf with
  | some (before, _) => grants.foldl (fun b g => replaceAtGrant before b g) buf
  | none => buf

/-- The write loop of `Writer::write`, char by char: bytes are accumulated in
the line buffer; on each `\n` the buffer is rewritten, emitted, and cleared.
Returns the emitted lines and the final line buffer. -/
def writeAux (grants : List Grant) : Str → Str → List Str × Str
  | buf, [] => ([], buf)
  | buf, c :: rest =>
    if c = '\n' then
      let r := writeAux grants [] rest
      (replace_guest_paths grants (buf ++ [c]) :: r.1, r.2)
    else writeAux grants (buf ++ [c]) rest

/-- Model of `Writer::write` (all inner-sink writes assumed to succeed, since
inner-sink I/O is outside the model): emitted lines, new line buffer, and the
reported byte count. -/
def Writer.write (grants : List Grant) (buf input : Str) : List Str × Str × Nat :=
  let r := writeAux grants buf input
  (r.1, r.2, input.length)

/-- Model of `Writer::flush`: delegates to the inner sink's `flush` only;
nothing is emitted and the line buffer is untouched. -/
def Writer.flush (buf : Str) : Str × List Str := (buf, [])

/-- Spec-side helper: the maximal chunks of `s` each ending in `\n`. -/
def completeLinesAux (acc : Str) : Str → List Str
  | [] => []
  | c :: rest =>
    if c = '\n' then (acc ++ [c]) :: completeLinesAux [] rest
    else completeLinesAux (acc ++ [c]) rest

/-- Spec-side helper: the chunks of `s` ending in `\n`, from the start. -/
def completeLines (s : Str) : List Str := completeLinesAux [] s

/-- Spec-side helper: the residue of `s` after its last `\n` (all of `s` if it
has none). -/
def pendingTailAux (acc : Str) : Str → Str
  | [] => acc
  | c :: rest =>
    if c = '\n' then pendingTailAux [] rest
    else pendingTailAux (acc ++ [c]) rest

/-- Residue of `s` after its last `\n`. -/
def pendingTail (s : Str) : Str := pendingTailAux [] s

/-- Requested access of each open operation, named as in the specification. -/
inductive Req where
  | ReadFile
  | WriteFile
  | AppendFile
  | ReadOnlyDir
  | ReadWriteDir
deriving DecidableEq

/-- Claim-side access-compatibility table, transcribed from the specification:
ReadFile ⊆ {ReadFile, Any}; WriteFile ⊆ {WriteFile, Any};
AppendFile ⊆ {AppendFile, Any}; ReadOnlyDir ⊆ {ReadOnlyDir, ReadWriteDir, Any};
ReadWriteDir ⊆ {ReadWriteDir, Any}. -/
def permitsReq : Req → Access → Bool
  | .ReadFile, a => a == .Read || a == .Any
  | .WriteFile, a => a == .Write || a == .Any
  | .AppendFile, a => a == .Append || a == .Any
  | .ReadOnlyDir, a => a == .ReadonlyDir || a == .MutableDir || a == .Any
  | .ReadWriteDir, a => a == .MutableDir || a == .Any

/-- Whether an open outcome delegated to the host filesystem. -/
def delegates : Except IoErr Str → Bool
  | .ok _ => true
  | .error _ => false

/-- The `default_access` chosen by the heuristic branch. -/
def defaultAccess (lvl : MagicLevel) : Access :=
  if mlGe lvl .Auto then .Any else .Read

/-- Totalised `split_extension` for use in closed-form statements (the default
is never reached when the definedness hypothesis holds). -/
def splitExtD (s : Str) : Str × Str := (split_extension s).getD (s, [])

/-- Claim-side acceptance test (C8 wording): the character immediately
following the dot is neither `.` nor a never-extension character. -/
def claimExtOkAt (rest : Str) : Bool :=
  match rest.head? with
  | some d => !(d == '.') && !(is_never_extension d)
  | none => true

/-- Claim-side extension search, following C8's words: the earliest `.`
(from the second character of the basename) passing `claimExtOkAt`. -/
def extSearchClaim : Str → Option Str
  | [] => none
  | c :: rest =>
    if c == '.' && claimExtOkAt rest then some (c :: rest) else extSearchClaim rest

/-- Claim-side `split_extension` as C8 states it. -/
def split_extension_claim (s : Str) : Str × Str :=
  let basename := afterLastSlash s
  if !(basename.contains '.') then (s, [])
  else
    match basename with
    | [] => (s, [])
    | _ :: rest =>
      match extSearchClaim rest with
      | some suffix => (s.take (s.length - suffix.length), suffix)
      | none => (s, [])

/-- Amended acceptance test: the character after the dot is not `.`, and no
character from the dot to the end of the string is a never-extension
character. -/
def amdExtOk (rest : Str) : Bool :=
  !(rest.headD ' ' == '.') && !(rest.any is_never_extension)

/-- Amended extension search: the earliest `.` (from the basename's second
character) passing `amdExtOk`. -/
def extSearchAmended : Str → Option Str
  | [] => none
  | c :: rest =>
    if c == '.' && amdExtOk rest then some (c :: rest) else extSearchAmended rest

/-- Amended claim-side `split_extension`. -/
def split_extension_amended (s : Str) : Str × Str :=
  let basename := afterLastSlash s
  if !(basename.contains '.') then (s, [])
  else
    match basename with
    | [] => (s, [])
    | _ :: rest =>
      match extSearchAmended rest with
      | some suffix => (s.take (s.length - suffix.length), suffix)
      | none => (s, [])

example : is_likely_path "/".toList = true := by decide

example : is_likely_path "hello.mp3".toList = true := by decide

example : is_likely_path ".gitignore".toList = true := by decide

example : is_likely_path "fo o/b ar".toList = true := by decide

example : is_likely_path "foo".toList = false := by decide

example : is_likely_path "".toList = false := by decide

example : is_likely_path "foo /bar".toList = false := by decide

example : is_likely_path "foo/bar.".toList = false := by decide

example : is_likely_path "moon.excessivelylongextension".toList = false := by decide

example : is_likely_path "!/what.txt".toList = false := by decide

example : is_likely_path ".this and that".toList = false := by decide

example : is_likely_path "foo/bar/.".toList = true := by decide

example : split_extension "/foo/bar.txt".toList = some ("/foo/bar".toList, ".txt".toList) := by decide

example : split_extension "/foo/.bar.txt.gz".toList = some ("/foo/.bar".toList, ".txt.gz".toList) := by decide

example : split_extension "/foo.qux/bar.*.txt".toList = some ("/foo.qux/bar.*".toList, ".txt".toList) := by decide

example : split_extension ".txt".toList = some (".txt".toList, []) := by decide

example : split_extension "a..txt".toList = some ("a.".toList, ".txt".toList) := by decide

example : split_extension ".".toList = some (".".toList, []) := by decide

example : split_extension "/foo.qux/bar.\u0007. .*..txt.gz".toList
    = some ("/foo.qux/bar.\u0007. .*.".toList, ".txt.gz".toList) := by decide

example : process gen0 (Preopener.new .Auto) "%".toList = .err reservedMsg := by decide

example : process gen0 (Preopener.new .Auto) "%%".toList = .err reservedMsg := by decide

example : process gen0 (Preopener.new .Auto) "%%%".toList = .err reservedMsg := by decide

example : process gen0 (Preopener.new .Auto) "%/foo".toList = .err reservedMsg := by decide

example : process gen0 (Preopener.new .Auto) "foo".toList = .ok "foo".toList (Preopener.new .Auto) := by decide

example : process gen0 (Preopener.new .Auto) "--input=foo".toList = .ok "--input=foo".toList (Preopener.new .Auto) := by decide

example : process gen0 (Preopener.new .Auto) "username@hostname:foo".toList
    = .ok "username@hostname:foo".toList (Preopener.new .Auto) := by decide

example : process gen0 (Preopener.new .Auto) "https://example.com:80/".toList
    = .ok "https://example.com:80/".toList (Preopener.new .Auto) := by decide

example : process gen0 (Preopener.new .Auto) "[:alnum:]".toList
    = .ok "[:alnum:]".toList (Preopener.new .Auto) := by decide

example : process gen0 (Preopener.new .Auto) "::".toList
    = .ok "::".toList (Preopener.new .Auto) := by decide

example : process gen0 (Preopener.new .Auto) "%verbatim:--input=/".toList
    = .ok "--input=/".toList (Preopener.new .Auto) := by decide

example : process gen0 (Preopener.new .Auto) "/foo".toList
    = .ok (mkToken (gen0 0)) ⟨.Auto, [⟨mkToken (gen0 0), "/foo".toList, .Any⟩], 1⟩ := by decide

example : process gen0 (Preopener.new .Readonly) "/foo".toList
    = .ok (mkToken (gen0 0)) ⟨.Readonly, [⟨mkToken (gen0 0), "/foo".toList, .Read⟩], 1⟩ := by decide

example : process gen0 (Preopener.new .None) "/foo".toList
    = .ok "/foo".toList (Preopener.new .None) := by decide

example : process gen0 (Preopener.new .Escapes) "/foo".toList
    = .ok "/foo".toList (Preopener.new .Escapes) := by decide

example : process gen0 (Preopener.new .Auto) "--input=/foo".toList
    = .ok ("--input=".toList ++ mkToken (gen0 0))
        ⟨.Auto, [⟨mkToken (gen0 0), "/foo".toList, .Any⟩], 1⟩ := by decide

example : process gen0 (Preopener.new .Auto) "./foo:./bar".toList
    = .ok (mkToken (gen0 0) ++ [':'] ++ mkToken (gen0 1))
        ⟨.Auto, [⟨mkToken (gen0 0), "./foo".toList, .Any⟩,
                 ⟨mkToken (gen0 1), "./bar".toList, .Any⟩], 2⟩ := by decide

example : process gen0 (Preopener.new .Auto) "name:with:colons".toList
    = .ok "name:with:colons".toList (Preopener.new .Auto) := by decide

example : process gen0 (Preopener.new .Auto) "/name:%with/:col/ons".toList
    = .ok "/name:%with/:col/ons".toList (Preopener.new .Auto) := by decide

example : process gen0 (Preopener.new .Auto) "%read:/data/file.txt".toList
    = .ok (mkToken (gen0 0) ++ ".txt".toList)
        ⟨.Auto, [⟨mkToken (gen0 0), "/data/file".toList, .Read⟩], 1⟩ := by decide

example : process gen0 (Preopener.new .Escapes) "%mutable-dir:/data".toList
    = .ok (mkToken (gen0 0))
        ⟨.Escapes, [⟨mkToken (gen0 0), "/data".toList, .MutableDir⟩], 1⟩ := by decide

example :
    Writer.write [⟨"guest-path.A".toList, "/p".toList⟩] [] "hello guest-path.A world\n".toList
      = (["hello /p world\n".toList], [], 25) := by decide

example :
    Writer.write [⟨"guest-path.A".toList, "/p".toList⟩] [] "guest-path.A guest-path.A\n".toList
      = (["/p guest-path.A\n".toList], [], 26) := by decide

theorem stripPfx_append (p s : Str) : stripPfx p (p ++ s) = some s := by
  induction p with
  | nil => rfl
  | cons c cs ih => simp [stripPfx, ih]

theorem stripPfx_eq_some {p s r : Str} : stripPfx p s = some r ↔ s = p ++ r := by
  constructor
  · intro h
    induction p generalizing s with
    | nil => simpa [stripPfx] using h
    | cons c cs ih =>
      cases s with
      | nil => simp [stripPfx] at h
      | cons d ds =>
        by_cases hcd : c = d
        · subst hcd
          simp [stripPfx] at h
          simp [ih h]
        · simp [stripPfx, hcd] at h
  · intro h
    subst h
    exact stripPfx_append p r

theorem openLoop_isSome_iff (ok : Access → Bool) (l : List Preopen) (path : Str) :
    (openLoop ok l path).isSome = true
      ↔ ∃ p ∈ l, ok p.access = true ∧ (stripPfx p.uuid path).isSome = true := by
  induction l with
  | nil => simp [openLoop]
  | cons p rest ih =>
    by_cases hok : ok p.access
    · cases hs : stripPfx p.uuid path with
      | some r => simp [openLoop, hok, hs]
      | none => simp [openLoop, hok, hs, ih]
    · simp [openLoop, hok, ih]

theorem preopen_search_failed_kind (l : List Preopen) (path : Str) :
    (preopen_search_failed l path).kind = .permissionDenied := by
  induction l with
  | nil => rfl
  | cons p rest ih =>
    cases hn : accessName p.access with
    | none => simpa [preopen_search_failed, hn] using ih
    | some nm =>
      by_cases hs : (stripPfx p.uuid path).isSome
      · simp [preopen_search_failed, hn, hs]
      · simp [preopen_search_failed, hn, hs, ih]

theorem readOk_eq_permits : ∀ a, readOk a = permitsReq .ReadFile a := by
  intro a
  cases a <;> rfl

theorem writeOk_eq_permits : ∀ a, writeOk a = permitsReq .WriteFile a := by
  intro a
  cases a <;> rfl

theorem appendOk_eq_permits : ∀ a, appendOk a = permitsReq .AppendFile a := by
  intro a
  cases a <;> rfl

theorem dirOk_eq_permits : ∀ a, dirOk a = permitsReq .ReadOnlyDir a := by
  intro a
  cases a <;> rfl

theorem mutableDirOk_eq_permits : ∀ a, mutableDirOk a = permitsReq .ReadWriteDir a := by
  intro a
  cases a <;> rfl

theorem open_delegates (st : Preopener) (path : Str) :
    delegates (st.open path) = (openLoop readOk st.preopens path).isSome := by
  unfold Preopener.open
  cases h : openLoop readOk st.preopens path <;> simp [delegates]

theorem create_delegates (st : Preopener) (path : Str) :
    delegates (st.create path) = (openLoop writeOk st.preopens path).isSome := by
  unfold Preopener.create
  cases h : openLoop writeOk st.preopens path <;> simp [delegates]

theorem append_delegates (st : Preopener) (path : Str) :
    delegates (st.append path) = (openLoop appendOk st.preopens path).isSome := by
  unfold Preopener.append
  cases h : openLoop appendOk st.preopens path <;> simp [delegates]

theorem open_dir_delegates (st : Preopener) (path : Str) :
    delegates (st.open_dir path) = (openLoop dirOk st.preopens path).isSome := by
  unfold Preopener.open_dir
  cases h : openLoop dirOk st.preopens path <;> simp [delegates]

theorem open_mutable_dir_delegates (st : Preopener) (path : Str) :
    delegates (st.open_mutable_dir path) = (openLoop mutableDirOk st.preopens path).isSome := by
  unfold Preopener.open_mutable_dir
  cases h : openLoop mutableDirOk st.preopens path <;> simp [delegates]

theorem open_error_kind (st : Preopener) (path : Str) (e : IoErr)
    (h : st.open path = .error e) : e.kind = .permissionDenied := by
  unfold Preopener.open at h
  cases hol : openLoop readOk st.preopens path <;> rw [hol] at h
  · cases h
    exact preopen_search_failed_kind st.preopens path
  · cases h

theorem create_error_kind (st : Preopener) (path : Str) (e : IoErr)
    (h : st.create path = .error e) : e.kind = .permissionDenied := by
  unfold Preopener.create at h
  cases hol : openLoop writeOk st.preopens path <;> rw [hol] at h
  · cases h
    exact preopen_search_failed_kind st.preopens path
  · cases h

theorem append_error_kind (st : Preopener) (path : Str) (e : IoErr)
    (h : st.append path = .error e) : e.kind = .permissionDenied := by
  unfold Preopener.append at h
  cases hol : openLoop appendOk st.preopens path <;> rw [hol] at h
  · cases h
    exact preopen_search_failed_kind st.preopens path
  · cases h

theorem open_dir_error_kind (st : Preopener) (path : Str) (e : IoErr)
    (h : st.open_dir path = .error e) : e.kind = .permissionDenied := by
  unfold Preopener.open_dir at h
  cases hol : openLoop dirOk st.preopens path <;> rw [hol] at h
  · cases h
    exact preopen_search_failed_kind st.preopens path
  · cases h

theorem open_mutable_dir_error_kind (st : Preopener) (path : Str) (e : IoErr)
    (h : st.open_mutable_dir path = .error e) : e.kind = .permissionDenied := by
  unfold Preopener.open_mutable_dir at h
  cases hol : openLoop mutableDirOk st.preopens path <;> rw [hol] at h
  · cases h
    exact preopen_search_failed_kind st.preopens path
  · cases h

/-- C1: each open operation (`open`, `create`, `append`, `open_dir`,
`open_mutable_dir`) delegates to the host filesystem if and only if some
binding's token is a prefix of the request string and its stored access
permits the requested access per the compatibility table; when no such
binding exists the operation returns an error whose kind is
`PermissionDenied`. -/
theorem C1_open_dispatch (st : Preopener) (path : Str) :
    (delegates (st.open path) = true
      ↔ ∃ p ∈ st.preopens, permitsReq .ReadFile p.access = true
          ∧ (stripPfx p.uuid path).isSome = true)
  ∧ (delegates (st.create path) = true
      ↔ ∃ p ∈ st.preopens, permitsReq .WriteFile p.access = true
          ∧ (stripPfx p.uuid path).isSome = true)
  ∧ (delegates (st.append path) = true
      ↔ ∃ p ∈ st.preopens, permitsReq .AppendFile p.access = true
          ∧ (stripPfx p.uuid path).isSome = true)
  ∧ (delegates (st.open_dir path) = true
      ↔ ∃ p ∈ st.preopens, permitsReq .ReadOnlyDir p.access = true
          ∧ (stripPfx p.uuid path).isSome = true)
  ∧ (delegates (st.open_mutable_dir path) = true
      ↔ ∃ p ∈ st.preopens, permitsReq .ReadWriteDir p.access = true
          ∧ (stripPfx p.uuid path).isSome = true)
  ∧ (∀ e, st.open path = .error e → e.kind = .permissionDenied)
  ∧ (∀ e, st.create path = .error e → e.kind = .permissionDenied)
  ∧ (∀ e, st.append path = .error e → e.kind = .permissionDenied)
  ∧ (∀ e, st.open_dir path = .error e → e.kind = .permissionDenied)
  ∧ (∀ e, st.open_mutable_dir path = .error e → e.kind = .permissionDenied) := by
  refine ⟨?_, ?_, ?_, ?_, ?_, ?_, ?_, ?_, ?_, ?_⟩
  · rw [open_delegates, openLoop_isSome_iff]
    simp only [readOk_eq_permits]
  · rw [create_delegates, openLoop_isSome_iff]
    simp only [writeOk_eq_permits]
  · rw [append_delegates, openLoop_isSome_iff]
    simp only [appendOk_eq_permits]
  · rw [open_dir_delegates, openLoop_isSome_iff]
    simp only [dirOk_eq_permits]
  · rw [open_mutable_dir_delegates, openLoop_isSome_iff]
    simp only [mutableDirOk_eq_permits]
  · exact open_error_kind st path
  · exact create_error_kind st path
  · exact append_error_kind st path
  · exact open_dir_error_kind st path
  · exact open_mutable_dir_error_kind st path

theorem C1_open_dispatch_witness :
    delegates (Preopener.open ⟨.Auto, [⟨"t".toList, "/o".toList, .Read⟩], 1⟩ "t/x".toList) = true
    ∧ IoErr.kind ⟨.permissionDenied, .notAPreopen⟩ = .permissionDenied := by
  constructor
  · exact (C1_open_dispatch ⟨.Auto, [⟨"t".toList, "/o".toList, .Read⟩], 1⟩ "t/x".toList).1.mpr
      ⟨⟨"t".toList, "/o".toList, .Read⟩, by decide, by decide, by decide⟩
  · exact (C1_open_dispatch ⟨.Auto, [], 0⟩ "t/x".toList).2.2.2.2.2.1
      ⟨.permissionDenied, .notAPreopen⟩ rfl

theorem openLoop_first (ok : Access → Bool) (pre post : List Preopen) (b : Preopen)
    (path r : Str)
    (hpre : ∀ q ∈ pre, ¬(ok q.access = true ∧ (stripPfx q.uuid path).isSome = true))
    (hb : ok b.access = true) (hs : stripPfx b.uuid path = some r) :
    openLoop ok (pre ++ b :: post) path = some (b.original ++ r) := by
  induction pre with
  | nil => simp [openLoop, hb, hs]
  | cons q qs ih =>
    have hq := hpre q (by simp)
    by_cases hok : ok q.access
    · have hnone : stripPfx q.uuid path = none := by
        cases h : stripPfx q.uuid path with
        | some _ => exact absurd ⟨hok, by simp [h]⟩ hq
        | none => rfl
      simpa [openLoop, hok, hnone] using ih (fun x hx => hpre x (by simp [hx]))
    · simpa [openLoop, hok] using ih (fun x hx => hpre x (by simp [hx]))

/-- C4: for a binding `(T, P, B)` that is the first one in insertion order
whose access permits the request and whose token is a prefix of `s`, each
open operation delegates to the host filesystem with exactly the path
`P ++ s[len T ..]`. -/
theorem C4_suffix_join (st : Preopener) (pre post : List Preopen) (b : Preopen) (s : Str)
    (hsplit : st.preopens = pre ++ b :: post)
    (hpfx : (stripPfx b.uuid s).isSome = true) :
    ((permitsReq .ReadFile b.access = true ∧
        ∀ q ∈ pre, ¬(permitsReq .ReadFile q.access = true ∧ (stripPfx q.uuid s).isSome = true)) →
      st.open s = .ok (b.original ++ s.drop b.uuid.length))
  ∧ ((permitsReq .WriteFile b.access = true ∧
        ∀ q ∈ pre, ¬(permitsReq .WriteFile q.access = true ∧ (stripPfx q.uuid s).isSome = true)) →
      st.create s = .ok (b.original ++ s.drop b.uuid.length))
  ∧ ((permitsReq .AppendFile b.access = true ∧
        ∀ q ∈ pre, ¬(permitsReq .AppendFile q.access = true ∧ (stripPfx q.uuid s).isSome = true)) →
      st.append s = .ok (b.original ++ s.drop b.uuid.length))
  ∧ ((permitsReq .ReadOnlyDir b.access = true ∧
        ∀ q ∈ pre, ¬(permitsReq .ReadOnlyDir q.access = true ∧ (stripPfx q.uuid s).isSome = true)) →
      st.open_dir s = .ok (b.original ++ s.drop b.uuid.length))
  ∧ ((permitsReq .ReadWriteDir b.access = true ∧
        ∀ q ∈ pre, ¬(permitsReq .ReadWriteDir q.access = true ∧ (stripPfx q.uuid s).isSome = true)) →
      st.open_mutable_dir s = .ok (b.original ++ s.drop b.uuid.length)) := by
  obtain ⟨r, hr⟩ := Option.isSome_iff_exists.mp hpfx
  have hsr : s = b.uuid ++ r := stripPfx_eq_some.mp hr
  have hdrop : s.drop b.uuid.length = r := by
    rw [hsr]
    exact List.drop_left b.uuid r
  refine ⟨?_, ?_, ?_, ?_, ?_⟩
  · intro ⟨hb, hpre⟩
    unfold Preopener.open
    rw [hsplit, openLoop_first readOk pre post b s r
      (by simpa only [readOk_eq_permits] using hpre) (by rw [readOk_eq_permits]; exact hb) hr,
      hdrop]
  · intro ⟨hb, hpre⟩
    unfold Preopener.create
    rw [hsplit, openLoop_first writeOk pre post b s r
      (by simpa only [writeOk_eq_permits] using hpre) (by rw [writeOk_eq_permits]; exact hb) hr,
      hdrop]
  · intro ⟨hb, hpre⟩
    unfold Preopener.append
    rw [hsplit, openLoop_first appendOk pre post b s r
      (by simpa only [appendOk_eq_permits] using hpre) (by rw [appendOk_eq_permits]; exact hb) hr,
      hdrop]
  · intro ⟨hb, hpre⟩
    unfold Preopener.open_dir
    rw [hsplit, openLoop_first dirOk pre post b s r
      (by simpa only [dirOk_eq_permits] using hpre) (by rw [dirOk_eq_permits]; exact hb) hr,
      hdrop]
  · intro ⟨hb, hpre⟩
    unfold Preopener.open_mutable_dir
    rw [hsplit, openLoop_first mutableDirOk pre post b s r
      (by simpa only [mutableDirOk_eq_permits] using hpre)
      (by rw [mutableDirOk_eq_permits]; exact hb) hr, hdrop]

theorem C4_suffix_join_witness :
    Preopener.open ⟨.Auto, [⟨"tok".toList, "/host".toList, .Any⟩], 1⟩ "tok/sub".toList
      = .ok "/host/sub".toList := by
  have h := (C4_suffix_join ⟨.Auto, [⟨"tok".toList, "/host".toList, .Any⟩], 1⟩ []
    [] ⟨"tok".toList, "/host".toList, .Any⟩ "tok/sub".toList (by decide) (by decide)).1
    ⟨by decide, by simp⟩
  simpa using h

theorem process_at_none (gen : Nat → Str) (st : Preopener) (arg : Str)
    (h : st.magic_level = .None) : process gen st arg = .ok arg st := by
  simp [process, h, mlGe, MagicLevel.toNat]

theorem process_args_at_none (gen : Nat → Str) (st : Preopener) (args : List Str)
    (h : st.magic_level = .None) : process_args gen st args = .ok args st := by
  induction args with
  | nil => rfl
  | cons a rest ih => simp [process_args, process_at_none gen st a h, ih]

theorem process_vars_at_none (gen : Nat → Str) (st : Preopener) (vars : List (Str × Str))
    (h : st.magic_level = .None) : process_vars gen st vars = .ok vars st := by
  induction vars with
  | nil => rfl
  | cons kv rest ih =>
    obtain ⟨k, v⟩ := kv
    simp [process_vars, process_at_none gen st v h, ih]

theorem empty_table_denied (st : Preopener) (path : Str) (h : st.preopens = []) :
    st.open path = .error ⟨.permissionDenied, .notAPreopen⟩
    ∧ st.create path = .error ⟨.permissionDenied, .notAPreopen⟩
    ∧ st.append path = .error ⟨.permissionDenied, .notAPreopen⟩
    ∧ st.open_dir path = .error ⟨.permissionDenied, .notAPreopen⟩
    ∧ st.open_mutable_dir path = .error ⟨.permissionDenied, .notAPreopen⟩ := by
  unfold Preopener.open Preopener.create Preopener.append Preopener.open_dir
    Preopener.open_mutable_dir
  rw [h]
  exact ⟨rfl, rfl, rfl, rfl, rfl⟩

/-- C7: at magic level `None`, `process` passes every argument through
verbatim and leaves the state untouched (so `process_args` / `process_vars`
translate nothing and the capability table stays empty), and on an empty
capability table every open operation fails with a `PermissionDenied` error. -/
theorem C7_none_level :
    (∀ (gen : Nat → Str) (st : Preopener) (arg : Str), st.magic_level = .None →
      process gen st arg = .ok arg st)
  ∧ (∀ (gen : Nat → Str) (st : Preopener) (args : List Str), st.magic_level = .None →
      process_args gen st args = .ok args st)
  ∧ (∀ (gen : Nat → Str) (st : Preopener) (vars : List (Str × Str)), st.magic_level = .None →
      process_vars gen st vars = .ok vars st)
  ∧ (∀ (st : Preopener) (path : Str), st.preopens = [] →
      st.open path = .error ⟨.permissionDenied, .notAPreopen⟩
      ∧ st.create path = .error ⟨.permissionDenied, .notAPreopen⟩
      ∧ st.append path = .error ⟨.permissionDenied, .notAPreopen⟩
      ∧ st.open_dir path = .error ⟨.permissionDenied, .notAPreopen⟩
      ∧ st.open_mutable_dir path = .error ⟨.permissionDenied, .notAPreopen⟩) :=
  ⟨process_at_none, process_args_at_none, process_vars_at_none, empty_table_denied⟩

theorem C7_none_level_witness :
    process_args gen0 (Preopener.new .None) ["/foo".toList, "out.txt".toList]
        = .ok ["/foo".toList, "out.txt".toList] (Preopener.new .None)
    ∧ Preopener.open (Preopener.new .None) "/foo".toList
        = .error ⟨.permissionDenied, .notAPreopen⟩ :=
  ⟨C7_none_level.2.1 gen0 (Preopener.new .None) ["/foo".toList, "out.txt".toList] rfl,
   (C7_none_level.2.2.2 (Preopener.new .None) "/foo".toList rfl).1⟩

theorem writeAux_eq (grants : List Grant) (input : Str) : ∀ acc,
    writeAux grants acc input
      = ((completeLinesAux acc input).map (replace_guest_paths grants),
         pendingTailAux acc input) := by
  induction input with
  | nil => intro acc; rfl
  | cons c rest ih =>
    intro acc
    by_cases h : c = '\n'
    · simp [writeAux, completeLinesAux, pendingTailAux, h, ih]
    · simp [writeAux, completeLinesAux, pendingTailAux, h, ih]

theorem completeLinesAux_shift (pre : Str) (h : '\n' ∉ pre) : ∀ acc s,
    completeLinesAux acc (pre ++ s) = completeLinesAux (acc ++ pre) s := by
  induction pre with
  | nil => intro acc s; simp
  | cons c cs ih =>
    intro acc s
    have hc : c ≠ '\n' := fun hc => h (hc ▸ List.mem_cons_self c cs)
    have hcs : '\n' ∉ cs := fun hm => h (List.mem_cons_of_mem c hm)
    simp [completeLinesAux, hc, ih hcs]

theorem pendingTailAux_shift (pre : Str) (h : '\n' ∉ pre) : ∀ acc s,
    pendingTailAux acc (pre ++ s) = pendingTailAux (acc ++ pre) s := by
  induction pre with
  | nil => intro acc s; simp
  | cons c cs ih =>
    intro acc s
    have hc : c ≠ '\n' := fun hc => h (hc ▸ List.mem_cons_self c cs)
    have hcs : '\n' ∉ cs := fun hm => h (List.mem_cons_of_mem c hm)
    simp [pendingTailAux, hc, ih hcs]

theorem completeLinesAux_nonl (s : Str) (h : '\n' ∉ s) : ∀ acc,
    completeLinesAux acc s = [] := by
  induction s with
  | nil => intro acc; rfl
  | cons c cs ih =>
    intro acc
    have hc : c ≠ '\n' := fun hc => h (hc ▸ List.mem_cons_self c cs)
    have hcs : '\n' ∉ cs := fun hm => h (List.mem_cons_of_mem c hm)
    simp [completeLinesAux, hc, ih hcs]

theorem pendingTailAux_nonl (s : Str) (h : '\n' ∉ s) : ∀ acc,
    pendingTailAux acc s = acc ++ s := by
  induction s with
  | nil => intro acc; simp [pendingTailAux]
  | cons c cs ih =>
    intro acc
    have hc : c ≠ '\n' := fun hc => h (hc ▸ List.mem_cons_self c cs)
    have hcs : '\n' ∉ cs := fun hm => h (List.mem_cons_of_mem c hm)
    simp [pendingTailAux, hc, ih hcs]

/-- C9: when every delegated write succeeds, `Writer::write` reports exactly
`buf.len()` bytes consumed; the chunks of the pending buffer plus the input
up to and including each `\n` are emitted (rewritten) as completed lines, and
the bytes after the last `\n` form the new line buffer, unemitted. -/
theorem C9_write_contract (grants : List Grant) (buf input : Str) (h : '\n' ∉ buf) :
    Writer.write grants buf input
      = ((completeLines (buf ++ input)).map (replace_guest_paths grants),
         pendingTail (buf ++ input), input.length) := by
  unfold Writer.write
  rw [writeAux_eq]
  unfold completeLines pendingTail
  rw [completeLinesAux_shift buf h, pendingTailAux_shift buf h]
  simp

theorem C9_write_contract_witness :
    Writer.write [⟨"guest-path.A".toList, "/p".toList⟩] "ab".toList "c\nde".toList
      = (["abc\n".toList], "de".toList, 4) := by
  have h := C9_write_contract [⟨"guest-path.A".toList, "/p".toList⟩] "ab".toList
    "c\nde".toList (by decide)
  rw [h]
  decide

/-- C10: `Writer::flush` only flushes the inner sink — nothing is emitted, no
substitution happens, and the pending line buffer is unchanged; buffered
bytes are emitted (rewritten) only once a later write supplies a `\n`. -/
theorem C10_flush_frame (grants : List Grant) (buf input : Str) (h : '\n' ∉ input) :
    Writer.flush buf = (buf, [])
    ∧ Writer.write grants buf input = ([], buf ++ input, input.length)
    ∧ Writer.write grants (buf ++ input) ['\n']
        = ([replace_guest_paths grants (buf ++ input ++ ['\n'])], [], 1) := by
  refine ⟨rfl, ?_, ?_⟩
  · unfold Writer.write
    rw [writeAux_eq]
    simp [completeLinesAux_nonl input h, pendingTailAux_nonl input h]
  · unfold Writer.write
    simp [writeAux, List.append_assoc]

theorem C10_flush_frame_witness :
    Writer.flush "abc".toList = ("abc".toList, [])
    ∧ Writer.write [] "a".toList "bc".toList = ([], "abc".toList, 2)
    ∧ Writer.write [] "abc".toList ['\n'] = (["abc\n".toList], [], 1) := by
  have h := C10_flush_frame [] "a".toList "bc".toList (by decide)
  have h3 := C10_flush_frame ([] : List Grant) "abc".toList [] (by decide)
  refine ⟨h3.1, by simpa using h.2.1, ?_⟩
  have h2 := h.2.2
  simp only [show ("a".toList : Str) ++ "bc".toList = "abc".toList from by decide] at h2
  rw [h2]
  decide

/-- C3 as stated is false: only the first occurrence of the token prefix in a
completed line is considered, so a second occurrence of a binding's token in
the same line is not replaced.  Writing `T ++ " " ++ T ++ "\n"` for the
binding `(T, "/p")` with `T = "guest-path.A"` emits `"/p guest-path.A\n"`,
in which the token still occurs, instead of `"/p /p\n"`. -/
theorem C3_counterexample :
    Writer.write [⟨"guest-path.A".toList, "/p".toList⟩] []
        "guest-path.A guest-path.A\n".toList
      = (["/p guest-path.A\n".toList], [], 26)
    ∧ "/p guest-path.A\n".toList
        = "/p ".toList ++ "guest-path.A".toList ++ "\n".toList
    ∧ ["/p guest-path.A\n".toList] ≠ ["/p /p\n".toList] := by decide

theorem find?_first_after {α : Type} (p : α → Bool) (l₁ : List α) (a : α) (l₂ : List α)
    (h₁ : ∀ x ∈ l₁, p x = false) (h₂ : p a = true) :
    List.find? p (l₁ ++ a :: l₂) = some a := by
  induction l₁ with
  | nil => simp [List.find?, h₂]
  | cons x xs ih =>
    have hx := h₁ x (by simp)
    rw [List.cons_append, List.find?_cons_of_neg _ (by simp [hx])]
    exact ih (fun y hy => h₁ y (by simp [hy]))

theorem window_head (hay needle : Str) (i : Nat) (c : Char)
    (hne : needle.head? = some c) (hg : hay[i]? ≠ some c) :
    ((hay.drop i).take needle.length) ≠ needle := by
  intro h
  cases needle with
  | nil => simp at hne
  | cons n0 ns =>
    simp at hne
    subst hne
    cases hd : hay.drop i with
    | nil => rw [hd] at h; simp at h
    | cons d ds =>
      rw [hd] at h
      simp [List.take_succ_cons] at h
      obtain ⟨h1, -⟩ := h
      apply hg
      have hhd : (hay.drop i).head? = hay[i]? := List.head?_drop hay i
      rw [hd] at hhd
      simp at hhd
      rw [← hhd, h1]

theorem is_subseq_hello (t : Str) :
    is_subsequence "guest-path.".toList
        ("hello ".toList ++ ("guest-path.".toList ++ t) ++ (" world".toList ++ ['\n']))
      = some (6, 17) := by
  set gp : Str := "guest-path.".toList with hgp
  set B : Str := "hello ".toList ++ (gp ++ t) ++ (" world".toList ++ ['\n']) with hB
  have hlenB : B.length = 24 + t.length := by
    simp [hB, hgp]
    omega
  unfold is_subsequence
  rw [if_pos (by rw [hlenB]; simp [hgp]; omega)]
  have hrange : B.length - (gp : Str).length = 13 + t.length := by
    rw [hlenB]; simp [hgp]; omega
  rw [hrange]
  have hr3 : List.range (13 + t.length)
      = List.range 6 ++ 6 :: ((List.range (6 + t.length)).map Nat.succ).map (6 + ·) := by
    have hr1 : List.range (13 + t.length)
        = List.range 6 ++ (List.range (7 + t.length)).map (6 + ·) := by
      rw [show (13 + t.length) = 6 + (7 + t.length) from by omega, List.range_add]
    have hr2 : List.range (7 + t.length) = 0 :: (List.range (6 + t.length)).map Nat.succ := by
      rw [show 7 + t.length = (6 + t.length) + 1 from by omega, List.range_succ_eq_map]
    rw [hr1, hr2]
    simp
  rw [hr3]
  rw [find?_first_after]
  · have hgl : gp.length = 11 := by decide
    rw [hgl]
  · intro x hx
    have hx6 : x < 6 := by simpa [List.mem_range] using hx
    simp only [decide_eq_false_iff_not]
    apply window_head B gp x 'g' (by simp [hgp])
    have hxlt : x < ("hello ".toList : Str).length := by simpa using hx6
    have hBx : B[x]? = ("hello ".toList : Str)[x]? := by
      rw [hB, List.append_assoc]
      exact List.getElem?_append_left hxlt
    rw [hBx]
    interval_cases x <;> decide
  · simp only [decide_eq_true_eq]
    have hB6 : B.drop 6 = (gp ++ t) ++ (" world".toList ++ ['\n']) := by
      rw [hB, List.append_assoc]
      have h6 : ("hello ".toList : Str).length = 6 := by decide
      rw [← h6, List.append_assoc, List.drop_left]
    rw [hB6]
    rw [show gp ++ t ++ (" world".toList ++ ['\n']) = gp ++ (t ++ (" world".toList ++ ['\n']))
      from by rw [List.append_assoc]]
    exact List.take_left gp _

theorem replace_hello (t P : Str) :
    replace_guest_paths [⟨"guest-path.".toList ++ t, P⟩]
        ("hello ".toList ++ ("guest-path.".toList ++ t) ++ (" world".toList ++ ['\n']))
      = "hello ".toList ++ P ++ (" world".toList ++ ['\n']) := by
  set gp : Str := "guest-path.".toList with hgp
  set B : Str := "hello ".toList ++ (gp ++ t) ++ (" world".toList ++ ['\n']) with hB
  unfold replace_guest_paths
  rw [show ("guest-path.".toList : Str) = gp from rfl]
  rw [is_subseq_hello t]
  simp only [List.foldl]
  unfold replaceAtGrant
  have hlenB : B.length = 24 + t.length := by
    simp [hB, hgp]
    omega
  have hdrop6 : B.drop 6 = (gp ++ t) ++ (" world".toList ++ ['\n']) := by
    rw [hB, List.append_assoc]
    have h6 : ("hello ".toList : Str).length = 6 := by decide
    rw [← h6, List.append_assoc, List.drop_left]
  have hcond : 6 + (gp ++ t).length ≤ B.length := by
    rw [hlenB]
    simp [hgp]
    omega
  rw [if_pos]
  · have htake6 : B.take 6 = "hello ".toList := by
      rw [hB, List.append_assoc]
      have h6 : ("hello ".toList : Str).length = 6 := by decide
      rw [← h6, List.take_left]
    have hdropall : B.drop (6 + (gp ++ t).length) = " world".toList ++ ['\n'] := by
      rw [hB]
      have hl : ("hello ".toList ++ (gp ++ t)).length = 6 + (gp ++ t).length := by
        simp
        omega
      rw [← hl, List.drop_left]
    rw [htake6, hdropall]
  · constructor
    · exact hcond
    · rw [hdrop6, List.take_left]

/-- C3 amended: for a mediator whose table holds the binding
`(T, P)` with `T = "guest-path." ++ u` (`u` without newline), writing
`"hello " ++ T ++ " world\n"` to a `Writer` emits `"hello " ++ P ++ " world\n"`
to the inner sink.  In general, on each completed line only the first
occurrence of the literal `guest-path.` is located, and each binding whose
token matches at that one position is substituted there; other occurrences of
tokens in the line are left unchanged. -/
theorem C3_token_substitution (t P : Str) (h : '\n' ∉ t) :
    Writer.write [⟨"guest-path.".toList ++ t, P⟩] []
        ("hello ".toList ++ ("guest-path.".toList ++ t) ++ " world\n".toList)
      = (["hello ".toList ++ P ++ " world\n".toList], [], t.length + 24) := by
  have hconv : (" world\n".toList : Str) = " world".toList ++ ['\n'] := by decide
  set gp : Str := "guest-path.".toList with hgp
  set L : Str := "hello ".toList ++ (gp ++ t) ++ " world".toList with hL
  have hinput : "hello ".toList ++ (gp ++ t) ++ " world\n".toList = L ++ ['\n'] := by
    rw [hconv, hL]
    exact (List.append_assoc _ _ _).symm
  have hLnl : '\n' ∉ L := by
    rw [hL]
    simp only [List.mem_append]
    rintro ((hm | (hm | hm)) | hm)
    · revert hm; decide
    · revert hm; decide
    · exact h hm
    · revert hm; decide
  rw [hinput]
  unfold Writer.write
  rw [writeAux_eq]
  rw [completeLinesAux_shift L hLnl, pendingTailAux_shift L hLnl]
  simp only [List.nil_append]
  have hcl : completeLinesAux L ['\n'] = [L ++ ['\n']] := by
    simp [completeLinesAux]
  have hpt : pendingTailAux L ['\n'] = [] := by
    simp [pendingTailAux]
  rw [hcl, hpt]
  have hline : L ++ ['\n'] = "hello ".toList ++ (gp ++ t) ++ (" world".toList ++ ['\n']) := by
    rw [hL]
    exact List.append_assoc _ _ _
  rw [List.map_cons, List.map_nil, hline, replace_hello t P]
  simp [hconv, hgp, List.append_assoc]

theorem C3_token_substitution_witness :
    Writer.write [⟨"guest-path.X".toList, "/real".toList⟩] []
        "hello guest-path.X world\n".toList
      = (["hello /real world\n".toList], [], 25) := by
  have h := C3_token_substitution "X".toList "/real".toList (by decide)
  simpa using h

theorem strip_percent (rest : Str) : stripPfx ['%'] ('%' :: rest) = some rest := by
  simp [stripPfx]

theorem stripPfx_none_of_neq_head (c d : Char) (p s : Str) (h : c ≠ d) :
    stripPfx (c :: p) (d :: s) = none := by
  simp [stripPfx, h]

theorem process_percent (gen : Nat → Str) (st : Preopener) (rest : Str)
    (hE : mlGe st.magic_level .Escapes = true) :
    process gen st ('%' :: rest) = processEscape gen st rest := by
  simp [process, hE, strip_percent]

/-- C6: at magic level ≥ `Escapes`, `%verbatim:REST` translates to `REST`
with no table insertion; each of `%read:P`, `%write:P`, `%append:P`,
`%dir:P`, `%mutable-dir:P` mints a fresh token, appends exactly one binding
with the corresponding access whose original is the stem of `P`, and
translates to `token ++ ext` where `(stem, ext) = split_extension P`; every
other `%`-prefixed argument fails with the reserved-prefix classifier
error. -/
theorem C6_escape_directives (gen : Nat → Str) (st : Preopener)
    (hE : mlGe st.magic_level .Escapes = true) :
    (∀ rest, process gen st ("%verbatim:".toList ++ rest) = .ok rest st)
  ∧ (∀ path stem ext, split_extension path = some (stem, ext) →
      process gen st ("%read:".toList ++ path)
        = .ok (mkToken (gen st.next) ++ ext)
            { st with preopens := st.preopens ++ [⟨mkToken (gen st.next), stem, .Read⟩],
                      next := st.next + 1 })
  ∧ (∀ path stem ext, split_extension path = some (stem, ext) →
      process gen st ("%write:".toList ++ path)
        = .ok (mkToken (gen st.next) ++ ext)
            { st with preopens := st.preopens ++ [⟨mkToken (gen st.next), stem, .Write⟩],
                      next := st.next + 1 })
  ∧ (∀ path stem ext, split_extension path = some (stem, ext) →
      process gen st ("%append:".toList ++ path)
        = .ok (mkToken (gen st.next) ++ ext)
            { st with preopens := st.preopens ++ [⟨mkToken (gen st.next), stem, .Append⟩],
                      next := st.next + 1 })
  ∧ (∀ path stem ext, split_extension path = some (stem, ext) →
      process gen st ("%dir:".toList ++ path)
        = .ok (mkToken (gen st.next) ++ ext)
            { st with preopens := st.preopens ++ [⟨mkToken (gen st.next), stem, .ReadonlyDir⟩],
                      next := st.next + 1 })
  ∧ (∀ path stem ext, split_extension path = some (stem, ext) →
      process gen st ("%mutable-dir:".toList ++ path)
        = .ok (mkToken (gen st.next) ++ ext)
            { st with preopens := st.preopens ++ [⟨mkToken (gen st.next), stem, .MutableDir⟩],
                      next := st.next + 1 })
  ∧ (∀ rest, stripPfx "verbatim:".toList rest = none →
      stripPfx "read:".toList rest = none →
      stripPfx "write:".toList rest = none →
      stripPfx "append:".toList rest = none →
      stripPfx "dir:".toList rest = none →
      stripPfx "mutable-dir:".toList rest = none →
      process gen st ('%' :: rest) = .err reservedMsg) := by
  refine ⟨?_, ?_, ?_, ?_, ?_, ?_, ?_⟩
  · intro rest
    rw [show ("%verbatim:".toList ++ rest : Str) = '%' :: ("verbatim:".toList ++ rest) from rfl,
      process_percent gen st _ hE]
    simp only [processEscape, stripPfx_append]
  · intro path stem ext hsplit
    rw [show ("%read:".toList ++ path : Str) = '%' :: ("read:".toList ++ path) from rfl,
      process_percent gen st _ hE]
    have h1 : stripPfx "verbatim:".toList ("read:".toList ++ path) = none :=
      stripPfx_none_of_neq_head 'v' 'r' _ _ (by decide)
    have h2 : stripPfx "read:".toList ("read:".toList ++ path) = some path :=
      stripPfx_append _ _
    simp only [processEscape, h1, h2]
    simp [directive, replace_with_uuid, hsplit, mkToken]
  · intro path stem ext hsplit
    rw [show ("%write:".toList ++ path : Str) = '%' :: ("write:".toList ++ path) from rfl,
      process_percent gen st _ hE]
    have h1 : stripPfx "verbatim:".toList ("write:".toList ++ path) = none :=
      stripPfx_none_of_neq_head 'v' 'w' _ _ (by decide)
    have h2 : stripPfx "read:".toList ("write:".toList ++ path) = none :=
      stripPfx_none_of_neq_head 'r' 'w' _ _ (by decide)
    have h3 : stripPfx "write:".toList ("write:".toList ++ path) = some path :=
      stripPfx_append _ _
    simp only [processEscape, h1, h2, h3]
    simp [directive, replace_with_uuid, hsplit, mkToken]
  · intro path stem ext hsplit
    rw [show ("%append:".toList ++ path : Str) = '%' :: ("append:".toList ++ path) from rfl,
      process_percent gen st _ hE]
    have h1 : stripPfx "verbatim:".toList ("append:".toList ++ path) = none :=
      stripPfx_none_of_neq_head 'v' 'a' _ _ (by decide)
    have h2 : stripPfx "read:".toList ("append:".toList ++ path) = none :=
      stripPfx_none_of_neq_head 'r' 'a' _ _ (by decide)
    have h3 : stripPfx "write:".toList ("append:".toList ++ path) = none :=
      stripPfx_none_of_neq_head 'w' 'a' _ _ (by decide)
    have h4 : stripPfx "append:".toList ("append:".toList ++ path) = some path :=
      stripPfx_append _ _
    simp only [processEscape, h1, h2, h3, h4]
    simp [directive, replace_with_uuid, hsplit, mkToken]
  · intro path stem ext hsplit
    rw [show ("%dir:".toList ++ path : Str) = '%' :: ("dir:".toList ++ path) from rfl,
      process_percent gen st _ hE]
    have h1 : stripPfx "verbatim:".toList ("dir:".toList ++ path) = none :=
      stripPfx_none_of_neq_head 'v' 'd' _ _ (by decide)
    have h2 : stripPfx "read:".toList ("dir:".toList ++ path) = none :=
      stripPfx_none_of_neq_head 'r' 'd' _ _ (by decide)
    have h3 : stripPfx "write:".toList ("dir:".toList ++ path) = none :=
      stripPfx_none_of_neq_head 'w' 'd' _ _ (by decide)
    have h4 : stripPfx "append:".toList ("dir:".toList ++ path) = none :=
      stripPfx_none_of_neq_head 'a' 'd' _ _ (by decide)
    have h5 : stripPfx "dir:".toList ("dir:".toList ++ path) = some path :=
      stripPfx_append _ _
    simp only [processEscape, h1, h2, h3, h4, h5]
    simp [directive, replace_with_uuid, hsplit, mkToken]
  · intro path stem ext hsplit
    rw [show ("%mutable-dir:".toList ++ path : Str) = '%' :: ("mutable-dir:".toList ++ path)
        from rfl,
      process_percent gen st _ hE]
    have h1 : stripPfx "verbatim:".toList ("mutable-dir:".toList ++ path) = none :=
      stripPfx_none_of_neq_head 'v' 'm' _ _ (by decide)
    have h2 : stripPfx "read:".toList ("mutable-dir:".toList ++ path) = none :=
      stripPfx_none_of_neq_head 'r' 'm' _ _ (by decide)
    have h3 : stripPfx "write:".toList ("mutable-dir:".toList ++ path) = none :=
      stripPfx_none_of_neq_head 'w' 'm' _ _ (by decide)
    have h4 : stripPfx "append:".toList ("mutable-dir:".toList ++ path) = none :=
      stripPfx_none_of_neq_head 'a' 'm' _ _ (by decide)
    have h5 : stripPfx "dir:".toList ("mutable-dir:".toList ++ path) = none :=
      stripPfx_none_of_neq_head 'd' 'm' _ _ (by decide)
    have h6 : stripPfx "mutable-dir:".toList ("mutable-dir:".toList ++ path) = some path :=
      stripPfx_append _ _
    simp only [processEscape, h1, h2, h3, h4, h5, h6]
    simp [directive, replace_with_uuid, hsplit, mkToken]
  · intro rest h1 h2 h3 h4 h5 h6
    rw [process_percent gen st _ hE]
    simp only [processEscape, h1, h2, h3, h4, h5, h6]

theorem C6_escape_directives_witness :
    process gen0 (Preopener.new .Escapes) "%verbatim:--input=/".toList
      = .ok "--input=/".toList (Preopener.new .Escapes)
    ∧ process gen0 (Preopener.new .Escapes) "%write:/data/file.txt".toList
      = .ok (mkToken (gen0 0) ++ ".txt".toList)
          ⟨.Escapes, [⟨mkToken (gen0 0), "/data/file".toList, .Write⟩], 1⟩
    ∧ process gen0 (Preopener.new .Escapes) "%%".toList = .err reservedMsg := by
  have h := C6_escape_directives gen0 (Preopener.new .Escapes) (by decide)
  refine ⟨?_, ?_, ?_⟩
  · have := h.1 "--input=/".toList
    simpa using this
  · have := h.2.2.1 "/data/file.txt".toList "/data/file".toList ".txt".toList (by decide)
    simpa using this
  · have := h.2.2.2.2.2.2 "%".toList (by decide) (by decide) (by decide) (by decide)
      (by decide) (by decide)
    simpa using this

theorem mlGe_escapes_of_readonly (l : MagicLevel) (h : mlGe l .Readonly = true) :
    mlGe l .Escapes = true := by
  cases l <;> simp_all [mlGe, MagicLevel.toNat]

theorem stripPfx_percent_none (arg : Str) (h : arg.head? ≠ some '%') :
    stripPfx ['%'] arg = none := by
  cases arg with
  | nil => rfl
  | cons c cs =>
    simp at h
    simp [stripPfx]
    exact fun hh => h hh.symm

theorem replaceSegments_spec (gen : Nat → Str) (da : Access) (segs : List Str) :
    ∀ st : Preopener, (∀ seg ∈ segs, split_extension seg ≠ none) →
    replaceSegments gen da st segs =
      some ((List.range segs.length).map
              (fun k => mkToken (gen (st.next + k)) ++ (splitExtD (segs.getD k [])).2),
            { st with
              preopens := st.preopens ++ (List.range segs.length).map
                (fun k => ⟨mkToken (gen (st.next + k)), (splitExtD (segs.getD k [])).1, da⟩),
              next := st.next + segs.length }) := by
  induction segs with
  | nil =>
    intro st h
    simp [replaceSegments]
  | cons seg rest ih =>
    intro st h
    have hseg : split_extension seg ≠ none := h seg (by simp)
    obtain ⟨p, hs⟩ := Option.ne_none_iff_exists'.mp hseg
    obtain ⟨stem, ext⟩ := p
    have hsd : splitExtD seg = (stem, ext) := by simp [splitExtD, hs]
    simp only [replaceSegments, replace_with_uuid, hs]
    rw [ih _ (fun s hmem => h s (by simp [hmem]))]
    simp only [Option.some.injEq, Prod.mk.injEq]
    constructor
    · rw [List.length_cons, List.range_succ_eq_map, List.map_cons, List.map_map]
      congr 1
      · simp [hsd]
      · apply List.map_congr_left
        intro k hk
        simp [Function.comp]
        congr 2
        omega
    · congr 1
      · rw [List.length_cons, List.range_succ_eq_map, List.map_cons, List.map_map]
        rw [show (st.preopens ++ [⟨mkToken (gen st.next), stem, da⟩] : List Preopen)
            ++ (List.range rest.length).map
                (fun k => ⟨mkToken (gen (st.next + 1 + k)), (splitExtD (rest.getD k [])).1, da⟩)
          = st.preopens ++ (⟨mkToken (gen st.next), stem, da⟩ ::
              (List.range rest.length).map
                (fun k => ⟨mkToken (gen (st.next + 1 + k)), (splitExtD (rest.getD k [])).1, da⟩))
          from by simp]
        congr 1
        congr 1
        · simp [hsd]
        · apply List.map_congr_left
          intro k hk
          simp [Function.comp]
          congr 2
          omega
      · simp
        omega

/-- C5: at magic level ≥ `Readonly`, a non-`%` argument is processed in this
order: a `:`-containing argument whose colon-separated segments all satisfy
`is_likely_path` has each segment tokenised (extension split per segment,
consecutive fresh tokens) and rejoined with `:`; a `:`-containing argument
failing that test passes through unchanged; otherwise a `--flag=PATH`
argument (no `/` before the first `=`, `is_likely_path` suffix) keeps its
prefix and tokenises the suffix; otherwise an `is_likely_path` argument
becomes a single token; otherwise the argument passes through.  Heuristic
bindings receive access `Any` at `Auto` and `ReadFile` at `Readonly`. -/
theorem C5_heuristic_order (gen : Nat → Str) (st : Preopener) (arg : Str)
    (hL : mlGe st.magic_level .Readonly = true)
    (hP : arg.head? ≠ some '%') :
    (arg.contains ':' = true → (splitOn ':' arg).all is_likely_path = true →
      (∀ seg ∈ splitOn ':' arg, split_extension seg ≠ none) →
      process gen st arg
        = .ok (joinSep [':'] ((List.range (splitOn ':' arg).length).map
              (fun k => mkToken (gen (st.next + k))
                  ++ (splitExtD ((splitOn ':' arg).getD k [])).2)))
            { st with
              preopens := st.preopens ++ (List.range (splitOn ':' arg).length).map
                (fun k => ⟨mkToken (gen (st.next + k)),
                           (splitExtD ((splitOn ':' arg).getD k [])).1,
                           defaultAccess st.magic_level⟩),
              next := st.next + (splitOn ':' arg).length })
  ∧ (arg.contains ':' = true → (splitOn ':' arg).all is_likely_path = false →
      process gen st arg = .ok arg st)
  ∧ (∀ pre suf stem ext, arg.contains ':' = false → splitAtFirstEq arg = some (pre, suf) →
      pre.contains '/' = false → is_likely_path suf = true →
      split_extension suf = some (stem, ext) →
      process gen st arg
        = .ok (pre ++ (mkToken (gen st.next) ++ ext))
            { st with
                preopens := st.preopens ++
                  [⟨mkToken (gen st.next), stem, defaultAccess st.magic_level⟩],
                next := st.next + 1 })
  ∧ (∀ stem ext, arg.contains ':' = false →
      (splitAtFirstEq arg = none ∨
        ∃ pre suf, splitAtFirstEq arg = some (pre, suf) ∧
          (pre.contains '/' = true ∨ is_likely_path suf = false)) →
      is_likely_path arg = true → split_extension arg = some (stem, ext) →
      process gen st arg
        = .ok (mkToken (gen st.next) ++ ext)
            { st with
                preopens := st.preopens ++
                  [⟨mkToken (gen st.next), stem, defaultAccess st.magic_level⟩],
                next := st.next + 1 })
  ∧ (arg.contains ':' = false →
      (splitAtFirstEq arg = none ∨
        ∃ pre suf, splitAtFirstEq arg = some (pre, suf) ∧
          (pre.contains '/' = true ∨ is_likely_path suf = false)) →
      is_likely_path arg = false → process gen st arg = .ok arg st)
  ∧ (defaultAccess .Auto = .Any ∧ defaultAccess .Readonly = .Read) := by
  have hesc := mlGe_escapes_of_readonly _ hL
  have hproc : process gen st arg = processHeuristic gen st arg := by
    simp [process, hesc, stripPfx_percent_none arg hP]
  refine ⟨?_, ?_, ?_, ?_, ?_, by decide⟩
  · intro hc hall hdef
    rw [hproc]
    simp only [processHeuristic, hL, hc, hall, if_true]
    rw [replaceSegments_spec gen _ (splitOn ':' arg) st hdef]
    simp [defaultAccess]
  · intro hc hall
    rw [hproc]
    simp only [processHeuristic, hL, hc, hall, if_true]
    simp
  · intro pre suf stem ext hc heq hpre hsuf hsplit
    rw [hproc]
    simp only [processHeuristic, hL, hc, heq, if_true, Bool.false_eq_true, if_false]
    have hpre' : '/' ∉ pre := by simpa using hpre
    simp [hpre', hsuf, replace_with_uuid, hsplit, defaultAccess]
  · intro stem ext hc hmiss hlik hsplit
    rw [hproc]
    simp only [processHeuristic, hL, hc, if_true, Bool.false_eq_true, if_false]
    rcases hmiss with hnone | ⟨pre, suf, heq, hfail⟩
    · rw [hnone]
      simp [processPlain, hlik, replace_with_uuid, hsplit, defaultAccess]
    · rw [heq]
      rcases hfail with hf | hf
      · have hf' : '/' ∈ pre := by simpa using hf
        simp [hf', processPlain, hlik, replace_with_uuid, hsplit, defaultAccess]
      · simp [hf, processPlain, hlik, replace_with_uuid, hsplit, defaultAccess]
  · intro hc hmiss hlik
    rw [hproc]
    simp only [processHeuristic, hL, hc, if_true, Bool.false_eq_true, if_false]
    rcases hmiss with hnone | ⟨pre, suf, heq, hfail⟩
    · rw [hnone]
      simp [processPlain, hlik]
    · rw [heq]
      rcases hfail with hf | hf
      · have hf' : '/' ∈ pre := by simpa using hf
        simp [hf', processPlain, hlik]
      · simp [hf, processPlain, hlik]

theorem C5_heuristic_order_witness :
    process gen0 (Preopener.new .Auto) "--input=/foo".toList
      = .ok ("--input=".toList ++ (mkToken (gen0 0) ++ []))
          ⟨.Auto, [⟨mkToken (gen0 0), "/foo".toList, .Any⟩], 1⟩ := by
  have h := (C5_heuristic_order gen0 (Preopener.new .Auto) "--input=/foo".toList
      (by decide) (by decide)).2.2.1
    "--input=".toList "/foo".toList "/foo".toList [] (by decide) (by decide) (by decide)
    (by decide) (by decide)
  simpa using h

/-- C2 fails as stated: the extension split off a tokenised path is preserved
verbatim in the translated string, so a substring of the replaced host path
of length ≥ 3 (here `txt` of `/foo/bar.txt`) occurs in the tokenised
output. -/
theorem C2_counterexample :
    process gen0 (Preopener.new .Auto) "/foo/bar.txt".toList
      = .ok (mkToken (gen0 0) ++ ".txt".toList)
          ⟨.Auto, [⟨mkToken (gen0 0), "/foo/bar".toList, .Any⟩], 1⟩
    ∧ mkToken (gen0 0) ++ ".txt".toList = "wasi-preopen.u0.".toList ++ "txt".toList ++ []
    ∧ "/foo/bar.txt".toList = "/foo/bar.".toList ++ "txt".toList ++ []
    ∧ ("txt".toList : Str).length ≥ 3 := by decide

theorem splitOn_ne_nil (sep : Char) (s : Str) : splitOn sep s ≠ [] := by
  cases s with
  | nil => simp [splitOn]
  | cons c cs =>
    simp only [splitOn]
    by_cases h : c = sep <;> simp [h]

theorem directive_ok (gen : Nat → Str) (st : Preopener) (path : Str) (a : Access)
    (out : Str) (st' : Preopener) (h : directive gen st path a = .ok out st') :
    ∃ stem ext, split_extension path = some (stem, ext)
      ∧ out = mkToken (gen st.next) ++ ext
      ∧ st' = { st with
                preopens := st.preopens ++ [⟨mkToken (gen st.next), stem, a⟩],
                next := st.next + 1 } := by
  unfold directive replace_with_uuid at h
  cases hsx : split_extension path with
  | none => rw [hsx] at h; cases h
  | some p =>
    obtain ⟨stem, ext⟩ := p
    rw [hsx] at h
    injection h with h1 h2
    exact ⟨stem, ext, rfl, h1.symm, h2.symm⟩

theorem processPlain_ok (gen : Nat → Str) (st : Preopener) (da : Access) (arg out : Str)
    (st' : Preopener) (h : processPlain gen st da arg = .ok out st') :
    out = arg ∨ ∃ stem ext, out = mkToken (gen st.next) ++ ext
      ∧ st' = { st with
                preopens := st.preopens ++ [⟨mkToken (gen st.next), stem, da⟩],
                next := st.next + 1 } := by
  unfold processPlain replace_with_uuid at h
  by_cases hl : is_likely_path arg
  · rw [if_pos hl] at h
    cases hsx : split_extension arg with
    | none => rw [hsx] at h; cases h
    | some p =>
      obtain ⟨stem, ext⟩ := p
      rw [hsx] at h
      injection h with h1 h2
      exact Or.inr ⟨stem, ext, h1.symm, h2.symm⟩
  · rw [if_neg hl] at h
    injection h with h1 h2
    exact Or.inl h1.symm

theorem replaceSegments_defined (gen : Nat → Str) (da : Access) (segs : List Str) :
    ∀ st outs st', replaceSegments gen da st segs = some (outs, st') →
      ∀ seg ∈ segs, split_extension seg ≠ none := by
  induction segs with
  | nil => intro st outs st' h seg hmem; cases hmem
  | cons s rest ih =>
    intro st outs st' h seg hmem
    rw [replaceSegments] at h
    cases hru : replace_with_uuid gen st s da with
    | none => rw [hru] at h; cases h
    | some q =>
      obtain ⟨out1, st1⟩ := q
      rw [hru] at h
      dsimp only at h
      rcases List.mem_cons.mp hmem with rfl | hmem'
      · unfold replace_with_uuid at hru
        cases hsx : split_extension seg with
        | none => rw [hsx] at hru; cases hru
        | some p => simp [hsx]
      · cases hrs : replaceSegments gen da st1 rest with
        | none => rw [hrs] at h; cases h
        | some r =>
          exact ih st1 r.1 r.2 (by rw [hrs]) seg hmem'

/-- C2 amended: every successfully processed argument translates to a string
that either equals the input (pass-through), or is the remainder of a
`%verbatim:` directive, or contains at least one recorded token as a
substring.  The original claim's substring-freedom clause is refuted by
`C2_counterexample`: split-off extensions are preserved verbatim. -/
theorem C2_token_hiding (gen : Nat → Str) (st : Preopener) (arg out : Str) (st' : Preopener)
    (h : process gen st arg = .ok out st') :
    out = arg ∨ stripPfx "%verbatim:".toList arg = some out
    ∨ ∃ p ∈ st'.preopens, ∃ s t, out = s ++ p.uuid ++ t := by
  by_cases hE : mlGe st.magic_level .Escapes
  case neg =>
    simp only [process, hE, Bool.false_eq_true, if_false] at h
    injection h with h1 h2
    exact Or.inl h1.symm
  case pos =>
  simp only [process, hE, if_true] at h
  cases hpct : stripPfx ['%'] arg with
  | some rest =>
    rw [hpct] at h
    have harg : arg = '%' :: rest := by
      have := stripPfx_eq_some.mp hpct
      simpa using this
    cases hv : stripPfx "verbatim:".toList rest with
    | some v =>
      simp only [processEscape, hv] at h
      injection h with h1 h2
      refine Or.inr (Or.inl ?_)
      have hrest : rest = "verbatim:".toList ++ v := stripPfx_eq_some.mp hv
      have : arg = "%verbatim:".toList ++ v := by
        rw [harg, hrest]
        rfl
      rw [this, stripPfx_append, h1]
    | none =>
    cases hr : stripPfx "read:".toList rest with
    | some path =>
      simp only [processEscape, hv, hr] at h
      obtain ⟨stem, ext, _, hout, hst⟩ := directive_ok gen st path .Read out st' h
      refine Or.inr (Or.inr ⟨⟨mkToken (gen st.next), stem, .Read⟩, by simp [hst], [], ext, by simpa using hout⟩)
    | none =>
    cases hw : stripPfx "write:".toList rest with
    | some path =>
      simp only [processEscape, hv, hr, hw] at h
      obtain ⟨stem, ext, _, hout, hst⟩ := directive_ok gen st path .Write out st' h
      refine Or.inr (Or.inr ⟨⟨mkToken (gen st.next), stem, .Write⟩, by simp [hst], [], ext, by simpa using hout⟩)
    | none =>
    cases ha : stripPfx "append:".toList rest with
    | some path =>
      simp only [processEscape, hv, hr, hw, ha] at h
      obtain ⟨stem, ext, _, hout, hst⟩ := directive_ok gen st path .Append out st' h
      refine Or.inr (Or.inr ⟨⟨mkToken (gen st.next), stem, .Append⟩, by simp [hst], [], ext, by simpa using hout⟩)
    | none =>
    cases hd : stripPfx "dir:".toList rest with
    | some path =>
      simp only [processEscape, hv, hr, hw, ha, hd] at h
      obtain ⟨stem, ext, _, hout, hst⟩ := directive_ok gen st path .ReadonlyDir out st' h
      refine Or.inr (Or.inr ⟨⟨mkToken (gen st.next), stem, .ReadonlyDir⟩, by simp [hst], [], ext, by simpa using hout⟩)
    | none =>
    cases hm : stripPfx "mutable-dir:".toList rest with
    | some path =>
      simp only [processEscape, hv, hr, hw, ha, hd, hm] at h
      obtain ⟨stem, ext, _, hout, hst⟩ := directive_ok gen st path .MutableDir out st' h
      refine Or.inr (Or.inr ⟨⟨mkToken (gen st.next), stem, .MutableDir⟩, by simp [hst], [], ext, by simpa using hout⟩)
    | none =>
      simp only [processEscape, hv, hr, hw, ha, hd, hm] at h
      cases h
  | none =>
    rw [hpct] at h
    by_cases hL : mlGe st.magic_level .Readonly
    case neg =>
      simp only [processHeuristic, hL, Bool.false_eq_true, if_false] at h
      injection h with h1 h2
      exact Or.inl h1.symm
    case pos =>
    simp only [processHeuristic, hL, if_true] at h
    by_cases hc : arg.contains ':'
    · rw [if_pos hc] at h
      by_cases hall : (splitOn ':' arg).all is_likely_path
      · rw [if_pos hall] at h
        cases hrs : replaceSegments gen
            (if mlGe st.magic_level MagicLevel.Auto = true then Access.Any else Access.Read)
            st (splitOn ':' arg) with
        | none => rw [hrs] at h; cases h
        | some q =>
          obtain ⟨outs, st2⟩ := q
          rw [hrs] at h
          dsimp only at h
          injection h with h1 h2
          have hdef := replaceSegments_defined gen _ (splitOn ':' arg) st outs st2 hrs
          rw [replaceSegments_spec gen _ (splitOn ':' arg) st hdef] at hrs
          injection hrs with hrs'
          injection hrs' with houts hst2
          obtain ⟨s0, srest, hsegs⟩ : ∃ s0 srest, splitOn ':' arg = s0 :: srest := by
            cases hsg : splitOn ':' arg with
            | nil => exact absurd hsg (splitOn_ne_nil ':' arg)
            | cons a b => exact ⟨a, b, rfl⟩
          refine Or.inr (Or.inr ?_)
          refine ⟨⟨mkToken (gen (st.next + 0)), (splitExtD s0).1,
            (if mlGe st.magic_level MagicLevel.Auto = true then Access.Any else Access.Read)⟩,
            ?_, ?_⟩
          · rw [← h2, ← hst2]
            simp only [List.mem_append]
            right
            rw [hsegs]
            simp only [List.length_cons, List.range_succ_eq_map, List.map_cons]
            simp
          · rw [← h1, ← houts, hsegs]
            simp only [List.length_cons, List.range_succ_eq_map, List.map_cons, List.map_map]
            cases hmap : (List.range srest.length).map
                ((fun k => mkToken (gen (st.next + k)) ++ (splitExtD ((s0 :: srest).getD k [])).2)
                  ∘ Nat.succ) with
            | nil =>
              refine ⟨[], (splitExtD s0).2, ?_⟩
              simp [joinSep, hmap]
            | cons o os =>
              refine ⟨[], (splitExtD s0).2 ++ ([':'] ++ joinSep [':'] (o :: os)), ?_⟩
              simp only [joinSep, hmap]
              simp [List.append_assoc]
      · rw [if_neg hall] at h
        injection h with h1 h2
        exact Or.inl h1.symm
    · rw [if_neg hc] at h
      cases heq : splitAtFirstEq arg with
      | some pq =>
        obtain ⟨pre, suf⟩ := pq
        rw [heq] at h
        dsimp only at h
        by_cases hcond : (!(pre.contains '/') && is_likely_path suf) = true
        · rw [if_pos hcond] at h
          unfold replace_with_uuid at h
          cases hsx : split_extension suf with
          | none => rw [hsx] at h; cases h
          | some p =>
            obtain ⟨stem, ext⟩ := p
            rw [hsx] at h
            dsimp only at h
            injection h with h1 h2
            refine Or.inr (Or.inr ⟨⟨mkToken (gen st.next), stem,
              (if mlGe st.magic_level MagicLevel.Auto = true then Access.Any else Access.Read)⟩,
              by simp [← h2], pre, ext, ?_⟩)
            rw [← h1]
            simp [List.append_assoc]
        · rw [if_neg hcond] at h
          rcases processPlain_ok gen st _ arg out st' h with h1 | ⟨stem, ext, hout, hst⟩
          · exact Or.inl h1
          · exact Or.inr (Or.inr ⟨⟨mkToken (gen st.next), stem,
              (if mlGe st.magic_level MagicLevel.Auto = true then Access.Any else Access.Read)⟩,
              by simp [hst], [], ext, by simpa using hout⟩)
      | none =>
        rw [heq] at h
        dsimp only at h
        rcases processPlain_ok gen st _ arg out st' h with h1 | ⟨stem, ext, hout, hst⟩
        · exact Or.inl h1
        · exact Or.inr (Or.inr ⟨⟨mkToken (gen st.next), stem,
            (if mlGe st.magic_level MagicLevel.Auto = true then Access.Any else Access.Read)⟩,
            by simp [hst], [], ext, by simpa using hout⟩)

theorem C2_token_hiding_witness :
    ("--input=".toList ++ (mkToken (gen0 0) ++ []) : Str) = "--input=/foo".toList
    ∨ stripPfx "%verbatim:".toList "--input=/foo".toList
        = some ("--input=".toList ++ (mkToken (gen0 0) ++ []))
    ∨ ∃ p ∈ (⟨.Auto, [⟨mkToken (gen0 0), "/foo".toList, .Any⟩], 1⟩ : Preopener).preopens,
        ∃ s t, "--input=".toList ++ (mkToken (gen0 0) ++ []) = s ++ p.uuid ++ t :=
  C2_token_hiding gen0 (Preopener.new .Auto) "--input=/foo".toList
    ("--input=".toList ++ (mkToken (gen0 0) ++ []))
    ⟨.Auto, [⟨mkToken (gen0 0), "/foo".toList, .Any⟩], 1⟩ (by decide)

/-- C8 fails as stated: the code rejects a candidate dot if ANY character
after it (to the end of the string) is a never-extension character, not just
the immediately following one.  On `"a.b:c"` the claimed algorithm yields
stem `"a"` and extension `".b:c"` (the character after the dot is `b`), but
the code finds no extension because the later `:` disqualifies the dot. -/
theorem C8_counterexample :
    split_extension "a.b:c".toList = some ("a.b:c".toList, [])
    ∧ split_extension_claim "a.b:c".toList = ("a".toList, ".b:c".toList)
    ∧ split_extension "a.b:c".toList ≠ some (split_extension_claim "a.b:c".toList) := by
  decide

theorem extSearch_eq_amended : ∀ r, extSearch r = extSearchAmended r := by
  intro r
  induction r with
  | nil => rfl
  | cons c rest ih =>
    by_cases hc : c = '.'
    · subst hc
      by_cases h1 : rest.headD ' ' = '.'
      · have hok : amdExtOk rest = false := by
          unfold amdExtOk
          rw [beq_iff_eq.mpr h1]
          simp
        have hcnd : ¬(('.' == '.' && amdExtOk rest) = true) := by
          rw [hok]
          decide
        rw [extSearch, if_pos rfl, if_pos h1, extSearchAmended, if_neg hcnd]
        exact ih
      · by_cases h2 : rest.any is_never_extension
        · have hok : amdExtOk rest = false := by
            unfold amdExtOk
            rw [h2]
            simp
          have hcnd : ¬(('.' == '.' && amdExtOk rest) = true) := by
            rw [hok]
            decide
          rw [extSearch, if_pos rfl, if_neg h1, if_pos h2, extSearchAmended, if_neg hcnd]
          exact ih
        · have hok : amdExtOk rest = true := by
            unfold amdExtOk
            rw [beq_eq_false_iff_ne.mpr h1, Bool.eq_false_iff.mpr h2]
            decide
          have hcnd : ('.' == '.' && amdExtOk rest) = true := by
            rw [hok]
            decide
          rw [extSearch, if_pos rfl, if_neg h1, if_neg h2, extSearchAmended, if_pos hcnd]
    · have hcnd : ¬((c == '.' && amdExtOk rest) = true) := by
        rw [beq_eq_false_iff_ne.mpr hc]
        simp
      rw [extSearch, if_neg hc, extSearchAmended, if_neg hcnd]
      exact ih

theorem extSearch_some (r suf : Str) (h : extSearch r = some suf) :
    suf <:+ r ∧ suf.head? = some '.' := by
  induction r with
  | nil => cases h
  | cons c rest ih =>
    by_cases hc : c = '.'
    · subst hc
      by_cases h1 : rest.headD ' ' = '.'
      · rw [extSearch, if_pos rfl, if_pos h1] at h
        obtain ⟨hsuf, hhead⟩ := ih h
        exact ⟨hsuf.trans (List.suffix_cons '.' rest), hhead⟩
      · by_cases h2 : rest.any is_never_extension
        · rw [extSearch, if_pos rfl, if_neg h1, if_pos h2] at h
          obtain ⟨hsuf, hhead⟩ := ih h
          exact ⟨hsuf.trans (List.suffix_cons '.' rest), hhead⟩
        · rw [extSearch, if_pos rfl, if_neg h1, if_neg h2] at h
          injection h with h'
          subst h'
          exact ⟨List.suffix_refl _, rfl⟩
    · rw [extSearch, if_neg hc] at h
      obtain ⟨hsuf, hhead⟩ := ih h
      exact ⟨hsuf.trans (List.suffix_cons c rest), hhead⟩

theorem afterLastSlash_suffix (s : Str) : afterLastSlash s <:+ s := by
  unfold afterLastSlash
  have h : s.reverse.takeWhile (fun c => !(c == '/')) <+: s.reverse :=
    List.takeWhile_prefix _
  have h2 := (@List.reverse_suffix Char (s.reverse.takeWhile (fun c => !(c == '/')))
    s.reverse).mpr h
  simpa using h2

theorem stem_append_of_suffix (s suf : Str) (h : suf <:+ s) :
    s.take (s.length - suf.length) ++ suf = s := by
  obtain ⟨t, ht⟩ := h
  have hlen : s.length - suf.length = t.length := by
    rw [← ht]
    simp
  rw [hlen, ← ht, List.take_left]

/-- C8 amended: `split_extension` returns `(stem, ext)` with `ext` empty or
beginning with `.` and `stem ++ ext = s`; when it returns (which it does
unless the basename contains a `.` and its first character is a multi-byte
character — there the Rust code panics slicing `&basename[1..]`), the
extension starts at the earliest `.` of the basename, searched from the
second character onward, such that the character after the dot is not `.`
and no character from there to the end of the string is a never-extension
character; a leading `.` in the basename never starts an extension. -/
theorem C8_split_extension (s : Str) :
    (∀ stem ext, split_extension s = some (stem, ext) →
      (ext = [] ∨ ext.head? = some '.') ∧ stem ++ ext = s)
  ∧ (split_extension s ≠ none → split_extension s = some (split_extension_amended s))
  ∧ (split_extension s = none ↔
      ((afterLastSlash s).contains '.' = true
        ∧ ∃ c rest, afterLastSlash s = c :: rest ∧ c.utf8Size ≠ 1)) := by
  refine ⟨?_, ?_, ?_⟩
  · intro stem ext h
    unfold split_extension at h
    dsimp only at h
    cases hcont : (afterLastSlash s).contains '.' with
    | true =>
      have hcnd : ¬((!(afterLastSlash s).contains '.') = true) := by
        rw [hcont]
        decide
      rw [if_neg hcnd] at h
      cases hb : afterLastSlash s with
      | nil => exact absurd hcont (by rw [hb]; decide)
      | cons c rest =>
        rw [hb] at h
        dsimp only at h
        by_cases hu : c.utf8Size ≠ 1
        · rw [if_pos hu] at h
          cases h
        · rw [if_neg hu] at h
          cases hes : extSearch rest with
          | none =>
            rw [hes] at h
            dsimp only at h
            injection h with h'
            injection h' with h1 h2
            subst h1
            subst h2
            simp
          | some suf =>
            rw [hes] at h
            dsimp only at h
            injection h with h'
            injection h' with h1 h2
            subst h1
            subst h2
            obtain ⟨hsuf, hhead⟩ := extSearch_some rest suf hes
            have hsufs : suf <:+ s := by
              have hx1 : suf <:+ c :: rest := hsuf.trans (List.suffix_cons c rest)
              have hx2 : (c :: rest : Str) <:+ s := hb ▸ afterLastSlash_suffix s
              exact hx1.trans hx2
            exact ⟨Or.inr hhead, stem_append_of_suffix s suf hsufs⟩
    | false =>
      have hcnd : ((!(afterLastSlash s).contains '.') = true) := by
        rw [hcont]
        decide
      rw [if_pos hcnd] at h
      injection h with h'
      injection h' with h1 h2
      subst h1
      subst h2
      simp
  · intro hdef
    unfold split_extension at hdef ⊢
    unfold split_extension_amended
    dsimp only at hdef ⊢
    cases hcont : (afterLastSlash s).contains '.' with
    | true =>
      have hcnd : ¬((!(afterLastSlash s).contains '.') = true) := by
        rw [hcont]
        decide
      rw [if_neg (by decide : ¬((!true) = true)), if_neg (by decide : ¬((!true) = true))]
      rw [if_neg hcnd] at hdef
      cases hb : afterLastSlash s with
      | nil => exact absurd hcont (by rw [hb]; decide)
      | cons c rest =>
        rw [hb] at hdef
        dsimp only at hdef ⊢
        by_cases hu : c.utf8Size ≠ 1
        · rw [if_pos hu] at hdef
          exact absurd rfl hdef
        · rw [if_neg hu]
          rw [extSearch_eq_amended]
          cases hes : extSearchAmended rest <;> rfl
    | false =>
      rw [if_pos (by decide : ((!false) = true)), if_pos (by decide : ((!false) = true))]
  · constructor
    · intro h
      unfold split_extension at h
      dsimp only at h
      cases hcont : (afterLastSlash s).contains '.' with
      | true =>
        have hcnd : ¬((!(afterLastSlash s).contains '.') = true) := by
          rw [hcont]
          decide
        rw [if_neg hcnd] at h
        cases hb : afterLastSlash s with
        | nil => exact absurd hcont (by rw [hb]; decide)
        | cons c rest =>
          rw [hb] at h
          dsimp only at h
          by_cases hu : c.utf8Size ≠ 1
          · exact ⟨rfl, c, rest, rfl, hu⟩
          · rw [if_neg hu] at h
            cases hes : extSearch rest <;> rw [hes] at h <;> dsimp only at h <;> cases h
      | false =>
        have hcnd : ((!(afterLastSlash s).contains '.') = true) := by
          rw [hcont]
          decide
        rw [if_pos hcnd] at h
        cases h
    · rintro ⟨hcont, c, rest, hb, hu⟩
      unfold split_extension
      dsimp only
      have hcnd : ¬((!(afterLastSlash s).contains '.') = true) := by
        rw [hcont]
        decide
      rw [if_neg hcnd, hb]
      dsimp only
      rw [if_pos hu]

theorem C8_split_extension_witness :
    split_extension "/fo.o/.bar.txt.gz".toList
      = some (split_extension_amended "/fo.o/.bar.txt.gz".toList)
    ∧ ((".txt.gz".toList : Str) = [] ∨ (".txt.gz".toList : Str).head? = some '.')
    ∧ "/fo.o/.bar".toList ++ ".txt.gz".toList = "/fo.o/.bar.txt.gz".toList := by
  refine ⟨(C8_split_extension _).2.1 (by decide), ?_, ?_⟩
  · exact ((C8_split_extension "/fo.o/.bar.txt.gz".toList).1
      "/fo.o/.bar".toList ".txt.gz".toList (by decide)).1
  · exact ((C8_split_extension "/fo.o/.bar.txt.gz".toList).1
      "/fo.o/.bar".toList ".txt.gz".toList (by decide)).2
